import Mathlib

/-!
# CleanClinic bronze-to-silver pipeline: a shallow embedding

This file embeds, in Lean, the core of the CleanClinic repository
(src/transforms/pii_scrubber.py, src/transforms/umls_mapper.py,
src/transforms/date_shifter.py, src/scripts/process_bronze_to_silver.py)
and proves or refutes the frozen specification claims about it.

Scalar cells of a pandas DataFrame are modelled by `Cell`; numeric cells
carry their Python string rendering, since every operation the claims touch
first passes cells through `str(...)`.  Regular expressions are embedded by
a small backtracking engine (`RE`, `reMatch`, `reSub`) whose priority order
mirrors the Python `re` module (leftmost position, left alternative first,
greedy quantifiers); all quantifiers appearing in the source patterns have
fixed-width bodies, for which the bounded desugarings used here are exact.
-/

namespace CleanClinic

/-- A scalar cell of a DataFrame column: a NaN-valued null (`np.nan`, the
float missing value), a None-valued null (the Python `None` object, which
is what `read_parquet` yields for a missing entry of a string/object
column), a string, or a numeric scalar carried as its Python string
rendering (every scrubbing operation first applies `str(...)` to non-null
cells).  The two null kinds agree for `pd.isna` but stringify
differently. -/
inductive Cell where
  | null
  | noneVal
  | str (s : String)
  | num (render : String)
  deriving DecidableEq, Repr

/-- `str(text)` for a cell; pandas `astype(str)` renders a NaN null as
"nan" and a None null as "None". -/
def cellStr : Cell → String
  | .null => "nan"
  | .noneVal => "None"
  | .str s => s
  | .num r => r

/-- `pd.isna`: true of both NaN-valued and None-valued nulls. -/
def isNaCell : Cell → Bool
  | .null => true
  | .noneVal => true
  | _ => false

/-- The guard `pd.isna(text) or text == ''` used by the mask / hash /
anonymize cell functions: the raw text of a cell, or `none` when the cell
is passed through unchanged (both null kinds are `pd.isna`). -/
def rawOf : Cell → Option String
  | .null => none
  | .noneVal => none
  | .str s => if s = "" then none else some s
  | .num r => some r

/-! ## Decimal rendering and the `%06d` format

`_anonymize_pii` builds pseudonyms with the Python format `f"ANON_{n:06d}"`:
the decimal digits of `n`, left-padded with zeros to a width of at least 6.
We embed decimal rendering directly so that its injectivity can be proved
via the evaluation map `digitsVal`. -/

def digitCharOf (n : Nat) : Char := Char.ofNat (48 + n)

/-- Decimal digits, most significant first, by structural recursion on a
fuel bound; `fuel > n` always suffices, as each step divides `n` by 10. -/
def natDigitsFuel : Nat → Nat → List Char
  | 0, _ => []
  | fuel + 1, n =>
    if n < 10 then [digitCharOf n]
    else natDigitsFuel fuel (n / 10) ++ [digitCharOf (n % 10)]

def natDigits (n : Nat) : List Char := natDigitsFuel (n + 1) n

def digitVal (c : Char) : Nat := c.toNat - 48

def digitsVal (ds : List Char) : Nat := ds.foldl (fun a c => 10 * a + digitVal c) 0

/-- `"%06d" % n`: decimal digits of `n`, zero-padded on the left to width 6. -/
def zfill6 (n : Nat) : List Char :=
  List.replicate (6 - (natDigits n).length) '0' ++ natDigits n

/-- The pseudonym the anonymizer assigns for counter value `n`:
`f"ANON_{n:06d}"`. -/
def anonFor (n : Nat) : String := String.mk ("ANON_".data ++ zfill6 n)

/-! ## Anonymize mode (`PIIScrubber._anonymize_pii`)

The anonymization map is a Python dict raw-value -> pseudonym; we model it
as an association list in insertion order (lookup by key, insert appends,
`len` is the number of entries). -/

/-- The instance-scoped `self._anonymization_map`. -/
abbrev AnonMap := List (String × String)

/-- `anonymize_text` from `_anonymize_pii`: null and empty cells pass
through; otherwise look the raw text up in the map, and on a miss assign
`f"ANON_{len(map):06d}"` and record it. -/
def anonymizeText (m : AnonMap) (c : Cell) : AnonMap × Cell :=
  match rawOf c with
  | none => (m, c)
  | some r =>
    match List.lookup r m with
    | some v => (m, .str v)
    | none =>
      let a := anonFor m.length
      (m ++ [(r, a)], .str a)

/-- `series.apply(anonymize_text)`: cells in order, threading the map. -/
def anonymizeCells (m : AnonMap) : List Cell → AnonMap × List Cell
  | [] => (m, [])
  | c :: cs =>
    ((anonymizeCells (anonymizeText m c).1 cs).1,
     (anonymizeText m c).2 :: (anonymizeCells (anonymizeText m c).1 cs).2)

/-- The sequence of raw values a list of cells feeds to the anonymizer
(null and empty cells contribute nothing). -/
def rawsOf (cells : List Cell) : List String := cells.filterMap rawOf

/-- First occurrences of values, in first-seen order, continuing from the
already-seen list `seen`: the evolution of the key set of the map. -/
def firstSeenFrom (seen : List String) : List String → List String
  | [] => seen
  | r :: rs => firstSeenFrom (if r ∈ seen then seen else seen ++ [r]) rs

/-- The map binding the values `rs` (in first-seen order) to the
pseudonyms of their positions, counted from `k`. -/
def mapOfSeenAux (k : Nat) : List String → AnonMap
  | [] => []
  | r :: rs => (r, anonFor k) :: mapOfSeenAux (k + 1) rs

/-- The map whose keys are `rs` in first-seen order, each bound to the
pseudonym of its position: the shape `_anonymization_map` always has. -/
def mapOfSeen (rs : List String) : AnonMap := mapOfSeenAux 0 rs

/-! ## Regex engine

A backtracking matcher for the regex subset used by the source patterns:
character classes, concatenation, alternation, bounded and unbounded
repetition of classes, word boundaries, capture groups.  `reMatch` returns
every way the expression can match a prefix of the input, in the priority
order of the Python `re` module: left alternative first, greedy repetition
longest first.  The word-character set is the ASCII core of Python `\w`;
every string these theorems evaluate is ASCII. -/

/-- Capture bindings: group index paired with the captured characters.
Repeated groups append; the retained binding is the last one, as in Python. -/
abbrev Caps := List (Nat × List Char)

inductive RE where
  | eps
  | cls (p : Char → Bool)
  | seq (a b : RE)
  | alt (a b : RE)
  | repMinCls (lo : Nat) (p : Char → Bool)
  | wb
  | grp (i : Nat) (r : RE)

def isWordChar (c : Char) : Bool := c.isAlphanum || c = '_'

def optWord : Option Char → Bool
  | none => false
  | some c => isWordChar c

/-- The character preceding the position reached after consuming `k`
characters of `s`, given the character `prv` preceding `s` itself. -/
def prevAfter (prv : Option Char) (s : List Char) (k : Nat) : Option Char :=
  if k = 0 then prv else s[k - 1]?

/-- All matches of `r` against a prefix of `s`, in Python priority order:
consumed length together with the capture bindings. `prv` is the character
just before `s` (for word boundaries). -/
def reMatch : RE → List Char → Option Char → List (Nat × Caps)
  | .eps, _, _ => [(0, [])]
  | .cls p, s, _ =>
    match s with
    | [] => []
    | c :: _ => if p c then [(1, [])] else []
  | .seq a b, s, prv =>
    (reMatch a s prv).flatMap fun la =>
      (reMatch b (s.drop la.1) (prevAfter prv s la.1)).map fun lb =>
        (la.1 + lb.1, la.2 ++ lb.2)
  | .alt a b, s, prv => reMatch a s prv ++ reMatch b s prv
  | .repMinCls lo p, s, _ =>
    let maxRun := (s.takeWhile p).length
    (List.range (maxRun + 1 - lo)).map fun i => (maxRun - i, ([] : Caps))
  | .wb, s, prv => if optWord prv ≠ optWord s.head? then [(0, [])] else []
  | .grp i r, s, prv =>
    (reMatch r s prv).map fun l => (l.1, l.2 ++ [(i, s.take l.1)])

/-- `r?` (greedy). -/
def RE.opt (r : RE) : RE := .alt r .eps

/-- `r{n}`. -/
def RE.pow (n : Nat) (r : RE) : RE := (List.replicate n r).foldr .seq .eps

/-- Alternation preferring earlier entries; empty list never matches. -/
def altList : List RE → RE
  | [] => .cls fun _ => false
  | [r] => r
  | r :: rs => .alt r (altList rs)

/-- `r{lo,hi}` greedy, desugared to an alternation preferring the largest
count.  Exact for the fixed-width bodies used by the source patterns. -/
def RE.repRange (lo hi : Nat) (r : RE) : RE :=
  altList ((List.range (hi + 1 - lo)).map fun i => RE.pow (hi - i) r)

/-- A literal character. -/
def RE.chr (c : Char) : RE := .cls (· = c)

/-- `p+` (greedy). -/
def RE.plusCls (p : Char → Bool) : RE := .repMinCls 1 p

/-- Concatenation of a pattern list. -/
def seqList (rs : List RE) : RE := rs.foldr .seq .eps

/-- The first (highest-priority) match of `r` at the current position:
the match Python selects. -/
def reFirst (r : RE) (s : List Char) (prv : Option Char) : Option (Nat × Caps) :=
  (reMatch r s prv).head?

/-- `re.search`: does `r` match starting at some position of `s`? -/
def reSearch (r : RE) : List Char → Option Char → Bool
  | [], prv => (reFirst r [] prv).isSome
  | c :: rest, prv => (reFirst r (c :: rest) prv).isSome || reSearch r rest (some c)

/-- A substitution template: a function of the matched text and captures. -/
abbrev Repl := List Char → Caps → List Char

/-- `re.sub`: scan left to right, replace each leftmost non-overlapping
match, resume after it (a zero-length match consumes one extra character,
as in Python 3.7+; no source pattern can match the empty string).
Structural recursion on a fuel bound; every step consumes at least one
character, so `fuel > s.length` always suffices. -/
def reSubFuel (r : RE) (f : Repl) : Nat → List Char → Option Char → List Char
  | 0, _, _ => []
  | _ + 1, [], prv =>
    match reFirst r [] prv with
    | some lc => f [] lc.2
    | none => []
  | fuel + 1, c :: rest, prv =>
    match reFirst r (c :: rest) prv with
    | some lc =>
      if lc.1 = 0 then f [] lc.2 ++ c :: reSubFuel r f fuel rest (some c)
      else
        f ((c :: rest).take lc.1) lc.2 ++
          reSubFuel r f fuel ((c :: rest).drop lc.1) (prevAfter prv (c :: rest) lc.1)
    | none => c :: reSubFuel r f fuel rest (some c)

def reSubAux (r : RE) (f : Repl) (s : List Char) (prv : Option Char) : List Char :=
  reSubFuel r f (s.length + 1) s prv

/-- `re.sub` over a whole string. -/
def reSub (r : RE) (f : Repl) (s : String) : String :=
  String.mk (reSubAux r f s.data none)

/-- Retained capture for a group: the last binding, as in Python. -/
def capGet (caps : Caps) (i : Nat) : List Char := (caps.reverse.lookup i).getD []

/-! ## Character classes of the source patterns

The content detectors search with `re.IGNORECASE`, under which `[A-Z]`
also matches `a`-`z`; classes that already contain both cases are
unaffected.  `\s` is the ASCII whitespace set of Python `re`. -/

def isAsciiAlpha (c : Char) : Bool := c.isAlpha
def isAsciiAlphanum (c : Char) : Bool := c.isAlphanum
def isUpperAZ (c : Char) : Bool := c.isUpper
def memberOf (cs : String) (c : Char) : Bool := cs.data.contains c
def isSpacePy (c : Char) : Bool := memberOf " \t\n\r\x0b\x0c" c
/-- `[-.\s]` (phone separators). -/
def isSepDPS (c : Char) : Bool := c = '-' || c = '.' || isSpacePy c
/-- `[-\s]` (credit-card separators). -/
def isSepDS (c : Char) : Bool := c = '-' || isSpacePy c
/-- `[A-Za-z0-9._%+-]` (email local part). -/
def isEmailLocal (c : Char) : Bool := isAsciiAlphanum c || memberOf "._%+-" c
/-- `[A-Za-z0-9.-]` (email domain). -/
def isEmailDomain (c : Char) : Bool := isAsciiAlphanum c || memberOf ".-" c
/-- `[A-Z|a-z]` (email TLD; the pipe is a literal member of the class). -/
def isEmailTld (c : Char) : Bool := isAsciiAlpha c || c = '|'
/-- `[0-9A-Fa-f]`. -/
def isHexC (c : Char) : Bool := c.isDigit || memberOf "ABCDEFabcdef" c
/-- `[:-]`. -/
def isColonDash (c : Char) : Bool := c = ':' || c = '-'
/-- The slash-or-dash character class. -/
def isSlashDash (c : Char) : Bool := c = '/' || c = '-'

/-- `\d{n}`. -/
def dQ (n : Nat) : RE := RE.pow n (.cls Char.isDigit)
/-- `\d{lo,hi}`. -/
def dR (lo hi : Nat) : RE := RE.repRange lo hi (.cls Char.isDigit)

/-! ## `PIIScrubber._initialize_patterns`

Each entry carries the regex source string exactly as written in the
Python dict (the generic mask branch replaces matches with
`'*' * len(pattern)`, the length of this source string) and its embedding.
Literal braces inside string literals are written with `\x7b` / `\x7d`. -/

structure PatternInfo where
  name : String
  src : String
  re : RE

/-- `r'\b\d{3}-?\d{2}-?\d{4}\b'` (ssn). -/
def ssnDetRE : RE :=
  seqList [.wb, dQ 3, RE.opt (RE.chr '-'), dQ 2, RE.opt (RE.chr '-'), dQ 4, .wb]

/-- `r'\b(\+\d{1,3}[-.\s]?)?\(?\d{3}\)?[-.\s]?\d{3}[-.\s]?\d{4}\b'` (phone). -/
def phoneDetRE : RE :=
  seqList [.wb,
    RE.opt (.grp 1 (seqList [RE.chr '+', dR 1 3, RE.opt (.cls isSepDPS)])),
    RE.opt (RE.chr '('), dQ 3, RE.opt (RE.chr ')'), RE.opt (.cls isSepDPS),
    dQ 3, RE.opt (.cls isSepDPS), dQ 4, .wb]

/-- `r'\b[A-Za-z0-9._%+-]+@[A-Za-z0-9.-]+\.[A-Z|a-z]{2,}\b'` (email). -/
def emailDetRE : RE :=
  seqList [.wb, RE.plusCls isEmailLocal, RE.chr '@', RE.plusCls isEmailDomain,
    RE.chr '.', .repMinCls 2 isEmailTld, .wb]

/-- `r'\b\d{4}[-\s]?\d{4}[-\s]?\d{4}[-\s]?\d{4}\b'` (credit_card). -/
def ccDetRE : RE :=
  seqList [.wb, dQ 4, RE.opt (.cls isSepDS), dQ 4, RE.opt (.cls isSepDS),
    dQ 4, RE.opt (.cls isSepDS), dQ 4, .wb]

/-- `r'\b[A-Z]{2}\d{6,10}\b'` (medical_license); `[A-Z]` is case-folded by
`re.IGNORECASE`, which both the content detector and the generic mask pass. -/
def medLicDetRE : RE := seqList [.wb, RE.pow 2 (.cls isAsciiAlpha), dR 6 10, .wb]

/-- `r'\b\d{10}\b'` (npi). -/
def npiDetRE : RE := seqList [.wb, dQ 10, .wb]

/-- `r'\b\d{1,3}\.\d{1,3}\.\d{1,3}\.\d{1,3}\b'` (ip_address). -/
def ipDetRE : RE :=
  seqList [.wb, dR 1 3, RE.chr '.', dR 1 3, RE.chr '.', dR 1 3, RE.chr '.', dR 1 3, .wb]

/-- `r'\b([0-9A-Fa-f]{2}[:-]){5}([0-9A-Fa-f]{2})\b'` (mac_address). -/
def macDetRE : RE :=
  seqList [.wb, RE.pow 5 (.grp 1 (seqList [RE.pow 2 (.cls isHexC), .cls isColonDash])),
    .grp 2 (RE.pow 2 (.cls isHexC)), .wb]

/-- `0[1-9]|1[0-2]`, a slash-or-dash class, `0[1-9]|[12]\d|3[01]`, a slash-or-dash class, `\d{4}`, all inside word boundaries (date_of_birth). -/
def dobDetRE : RE :=
  seqList [.wb,
    .grp 1 (.alt (seqList [RE.chr '0', .cls (memberOf "123456789")])
                 (seqList [RE.chr '1', .cls (memberOf "012")])),
    .cls isSlashDash,
    .grp 2 (altList [seqList [RE.chr '0', .cls (memberOf "123456789")],
                     seqList [.cls (memberOf "12"), .cls Char.isDigit],
                     seqList [RE.chr '3', .cls (memberOf "01")]]),
    .cls isSlashDash, dQ 4, .wb]

/-- The `self.pii_patterns` dict, in insertion order. -/
def piiPatterns : List PatternInfo :=
  [⟨"ssn", "\\b\\d\x7b3\x7d-?\\d\x7b2\x7d-?\\d\x7b4\x7d\\b", ssnDetRE⟩,
   ⟨"phone", "\\b(\\+\\d\x7b1,3\x7d[-.\\s]?)?\\(?\\d\x7b3\x7d\\)?[-.\\s]?\\d\x7b3\x7d[-.\\s]?\\d\x7b4\x7d\\b", phoneDetRE⟩,
   ⟨"email", "\\b[A-Za-z0-9._%+-]+@[A-Za-z0-9.-]+\\.[A-Z|a-z]\x7b2,\x7d\\b", emailDetRE⟩,
   ⟨"credit_card", "\\b\\d\x7b4\x7d[-\\s]?\\d\x7b4\x7d[-\\s]?\\d\x7b4\x7d[-\\s]?\\d\x7b4\x7d\\b", ccDetRE⟩,
   ⟨"medical_license", "\\b[A-Z]\x7b2\x7d\\d\x7b6,10\x7d\\b", medLicDetRE⟩,
   ⟨"npi", "\\b\\d\x7b10\x7d\\b", npiDetRE⟩,
   ⟨"ip_address", "\\b\\d\x7b1,3\x7d\\.\\d\x7b1,3\x7d\\.\\d\x7b1,3\x7d\\.\\d\x7b1,3\x7d\\b", ipDetRE⟩,
   ⟨"mac_address", "\\b([0-9A-Fa-f]\x7b2\x7d[:-])\x7b5\x7d([0-9A-Fa-f]\x7b2\x7d)\\b", macDetRE⟩,
   ⟨"date_of_birth", "\\b(0[1-9]|1[0-2])[/-](0[1-9]|[12]\\d|3[01])[/-]\\d\x7b4\x7d\\b", dobDetRE⟩]

/-! ## Mask mode (`PIIScrubber._mask_pii`)

The four special-cased detectors use their own capture patterns and
templates (no flags); every other detector is handled by the generic
branch, which substitutes `'*' * len(pattern_info['pattern'])` — a run of
asterisks as long as the regex source string, not the matched text. -/

/-- `r'(\d{3})-?(\d{2})-?(\d{4})'`. -/
def ssnSubRE : RE :=
  seqList [.grp 1 (dQ 3), RE.opt (RE.chr '-'), .grp 2 (dQ 2), RE.opt (RE.chr '-'), .grp 3 (dQ 4)]

/-- `r'***-**-\3'`. -/
def ssnRepl : Repl := fun _ caps => "***-**-".data ++ capGet caps 3

/-- `r'(\+\d{1,3}[-.\s]?)?\(?(\d{3})\)?[-.\s]?(\d{3})[-.\s]?(\d{4})'`. -/
def phoneSubRE : RE :=
  seqList [RE.opt (.grp 1 (seqList [RE.chr '+', dR 1 3, RE.opt (.cls isSepDPS)])),
    RE.opt (RE.chr '('), .grp 2 (dQ 3), RE.opt (RE.chr ')'), RE.opt (.cls isSepDPS),
    .grp 3 (dQ 3), RE.opt (.cls isSepDPS), .grp 4 (dQ 4)]

/-- `r'(***) ***-\4'`. -/
def phoneRepl : Repl := fun _ caps => "(***) ***-".data ++ capGet caps 4

/-- `r'([A-Za-z0-9._%+-])@([A-Za-z0-9.-]+\.[A-Z|a-z]{2,})'`. -/
def emailSubRE : RE :=
  seqList [.grp 1 (.cls isEmailLocal), RE.chr '@',
    .grp 2 (seqList [RE.plusCls isEmailDomain, RE.chr '.', .repMinCls 2 isEmailTld])]

/-- `r'\1***@\2'`. -/
def emailRepl : Repl := fun _ caps => capGet caps 1 ++ "***@".data ++ capGet caps 2

/-- `r'(\d{4})[-\s]?(\d{4})[-\s]?(\d{4})[-\s]?(\d{4})'`. -/
def ccSubRE : RE :=
  seqList [.grp 1 (dQ 4), RE.opt (.cls isSepDS), .grp 2 (dQ 4), RE.opt (.cls isSepDS),
    .grp 3 (dQ 4), RE.opt (.cls isSepDS), .grp 4 (dQ 4)]

/-- `r'****-****-****-\4'`. -/
def ccRepl : Repl := fun _ caps => "****-****-****-".data ++ capGet caps 4

/-- One iteration of the `mask_text` loop over `self.pii_patterns`. -/
def maskStep (t : List Char) (pi : PatternInfo) : List Char :=
  if pi.name = "ssn" then reSubAux ssnSubRE ssnRepl t none
  else if pi.name = "phone" then reSubAux phoneSubRE phoneRepl t none
  else if pi.name = "email" then reSubAux emailSubRE emailRepl t none
  else if pi.name = "credit_card" then reSubAux ccSubRE ccRepl t none
  else reSubAux pi.re (fun _ _ => List.replicate pi.src.length '*') t none

/-- `mask_text` on a raw string. -/
def maskTextStr (s : String) : String := String.mk (piiPatterns.foldl maskStep s.data)

/-- `mask_text` on a cell: null and empty cells pass through. -/
def maskCell (c : Cell) : Cell :=
  match rawOf c with
  | none => c
  | some r => .str (maskTextStr r)

/-! ## Remove mode (`PIIScrubber._remove_pii`)

`astype(str)` turns every cell (null included) into its string rendering,
each pattern is erased in turn with `re.IGNORECASE`, and a cell left as
the empty string is replaced by null. -/

/-- Erase every match of every detector, in dict order. -/
def removeAllPatterns (s : String) : String :=
  String.mk (piiPatterns.foldl (fun t pi => reSubAux pi.re (fun _ _ => []) t none) s.data)

/-- Remove-mode treatment of one cell. -/
def removeCell (c : Cell) : Cell :=
  let s := removeAllPatterns (cellStr c)
  if s = "" then .null else .str s

/-! ## Column classification

`_identify_pii_columns` / `_find_clinical_code_columns`: a case-insensitive
substring match of the column name against a fixed vocabulary, with a
content check as fallback.  The content check computes
`sample_size = min(1000, len(series))` from the length INCLUDING nulls and
then samples from `series.dropna()`; pandas raises
`ValueError: Cannot take a larger sample than population` whenever the
non-null population is smaller than that.  The seeded pseudorandom sample
is modelled as the first `sample_size` non-null values; every theorem
below either forces the sampled set (columns with at most one non-null
value) or does not depend on which values are drawn. -/

inductive PdError where
  | sampleLargerThanPopulation
  deriving DecidableEq, Repr

/-- `self.pii_column_patterns`. -/
def piiColumnPatterns : List String :=
  ["name", "first", "last", "middle", "full",
   "address", "street", "city", "state", "zip",
   "phone", "tel", "mobile", "fax",
   "email", "e-mail", "mail",
   "ssn", "social", "security",
   "mrn", "medical_record", "patient_id",
   "credit", "card", "cc_",
   "license", "drivers", "dl_",
   "ip", "device", "mac",
   "provider", "physician", "doctor",
   "npi", "national_provider"]

/-- Python `str.lower()`, restricted to ASCII (column names here are ASCII). -/
def lowerChar (c : Char) : Char :=
  if c.isUpper then Char.ofNat (c.toNat + 32) else c

def lowerStr (s : String) : List Char := s.data.map lowerChar

def startsWithL : List Char → List Char → Bool
  | [], _ => true
  | _ :: _, [] => false
  | a :: as, b :: bs => a = b && startsWithL as bs

/-- Python `needle in hay` on strings (contiguous substring). -/
def isSubchain (needle : List Char) : List Char → Bool
  | [] => needle.isEmpty
  | c :: rest => startsWithL needle (c :: rest) || isSubchain needle rest

/-- `any(pattern in column_lower for pattern in self.pii_column_patterns)`. -/
def nameMatchesPII (name : String) : Bool :=
  piiColumnPatterns.any fun p => isSubchain p.data (lowerStr name)

/-- `_column_contains_pii`. -/
def columnContainsPII (cells : List Cell) : Except PdError Bool :=
  let sampleSize := min 1000 cells.length
  let nonNull := cells.filter (fun c => !isNaCell c)
  if nonNull.length < sampleSize then .error .sampleLargerThanPopulation
  else
    let sample := nonNull.take sampleSize
    if sample.length = 0 then .ok false
    else
      let blob := List.intercalate [' '] (sample.map fun c => (cellStr c).data)
      .ok (piiPatterns.any fun pi => reSearch pi.re blob none)

/-- Classification of one column by `_identify_pii_columns`: the name
match short-circuits the content check. -/
def columnIsPII (name : String) (cells : List Cell) : Except PdError Bool :=
  if nameMatchesPII name then .ok true else columnContainsPII cells

/-- `UMLSMapper` code-column vocabulary. -/
def codeColumnPatterns : List String :=
  ["icd", "snomed", "cpt", "hcpcs", "loinc", "rxnorm",
   "diagnosis", "procedure", "code", "cui", "concept"]

def nameMatchesCode (name : String) : Bool :=
  codeColumnPatterns.any fun p => isSubchain p.data (lowerStr name)

/-- `r'\b[A-Z]\d{2}\.\d{1,2}\b'` (ICD-10; searched without flags, so the
letter class is uppercase only). -/
def icdRE : RE := seqList [.wb, .cls isUpperAZ, dQ 2, RE.chr '.', dR 1 2, .wb]

/-- `r'\b\d{6,18}\b'` (SNOMED). -/
def snomedRE : RE := seqList [.wb, dR 6 18, .wb]

/-- `r'\b\d{5}\b'` (CPT). -/
def cptRE : RE := seqList [.wb, dQ 5, .wb]

/-- `_column_contains_codes`: same sampling as the PII content check, then
the three code shapes in turn. -/
def columnContainsCodes (cells : List Cell) : Except PdError Bool :=
  let sampleSize := min 1000 cells.length
  let nonNull := cells.filter (fun c => !isNaCell c)
  if nonNull.length < sampleSize then .error .sampleLargerThanPopulation
  else
    let sample := nonNull.take sampleSize
    if sample.length = 0 then .ok false
    else
      let blob := List.intercalate [' '] (sample.map fun c => (cellStr c).data)
      if reSearch icdRE blob none then .ok true
      else if reSearch snomedRE blob none then .ok true
      else if reSearch cptRE blob none then .ok true
      else .ok false

/-- Classification of one column by `_find_clinical_code_columns`. -/
def columnIsCode (name : String) (cells : List Cell) : Except PdError Bool :=
  if nameMatchesCode name then .ok true else columnContainsCodes cells

/-! ## SHA-256 (`hashlib.sha256`) and hash mode

A direct embedding of SHA-256 over byte lists, words as naturals reduced
mod 2^32.  `_hash_pii` appends the salt to the string form of the cell,
UTF-8 encodes it, and keeps the first 16 characters of the hex digest. -/

def w32 (n : Nat) : Nat := n % 4294967296

def rotr (n x : Nat) : Nat := w32 ((x >>> n) ||| (x <<< (32 - n)))

def shaCh (x y z : Nat) : Nat := (x &&& y) ^^^ ((x ^^^ 4294967295) &&& z)

def shaMaj (x y z : Nat) : Nat := (x &&& y) ^^^ (x &&& z) ^^^ (y &&& z)

def bigS0 (x : Nat) : Nat := rotr 2 x ^^^ rotr 13 x ^^^ rotr 22 x

def bigS1 (x : Nat) : Nat := rotr 6 x ^^^ rotr 11 x ^^^ rotr 25 x

def smallS0 (x : Nat) : Nat := rotr 7 x ^^^ rotr 18 x ^^^ (x >>> 3)

def smallS1 (x : Nat) : Nat := rotr 17 x ^^^ rotr 19 x ^^^ (x >>> 10)

def shaK : List Nat :=
  [0x428a2f98, 0x71374491, 0xb5c0fbcf, 0xe9b5dba5, 0x3956c25b, 0x59f111f1, 0x923f82a4, 0xab1c5ed5,
   0xd807aa98, 0x12835b01, 0x243185be, 0x550c7dc3, 0x72be5d74, 0x80deb1fe, 0x9bdc06a7, 0xc19bf174,
   0xe49b69c1, 0xefbe4786, 0x0fc19dc6, 0x240ca1cc, 0x2de92c6f, 0x4a7484aa, 0x5cb0a9dc, 0x76f988da,
   0x983e5152, 0xa831c66d, 0xb00327c8, 0xbf597fc7, 0xc6e00bf3, 0xd5a79147, 0x06ca6351, 0x14292967,
   0x27b70a85, 0x2e1b2138, 0x4d2c6dfc, 0x53380d13, 0x650a7354, 0x766a0abb, 0x81c2c92e, 0x92722c85,
   0xa2bfe8a1, 0xa81a664b, 0xc24b8b70, 0xc76c51a3, 0xd192e819, 0xd6990624, 0xf40e3585, 0x106aa070,
   0x19a4c116, 0x1e376c08, 0x2748774c, 0x34b0bcb5, 0x391c0cb3, 0x4ed8aa4a, 0x5b9cca4f, 0x682e6ff3,
   0x748f82ee, 0x78a5636f, 0x84c87814, 0x8cc70208, 0x90befffa, 0xa4506ceb, 0xbef9a3f7, 0xc67178f2]

structure Sha8 where
  a : Nat
  b : Nat
  c : Nat
  d : Nat
  e : Nat
  f : Nat
  g : Nat
  h : Nat

def shaInit : Sha8 :=
  ⟨0x6a09e667, 0xbb67ae85, 0x3c6ef372, 0xa54ff53a, 0x510e527f, 0x9b05688c, 0x1f83d9ab, 0x5be0cd19⟩

def shaRound (st : Sha8) (kw : Nat × Nat) : Sha8 :=
  let t1 := w32 (st.h + bigS1 st.e + shaCh st.e st.f st.g + kw.1 + kw.2)
  let t2 := w32 (bigS0 st.a + shaMaj st.a st.b st.c)
  ⟨w32 (t1 + t2), st.a, st.b, st.c, w32 (st.d + t1), st.e, st.f, st.g⟩

/-- Big-endian 32-bit words from a 64-byte block. -/
def wordsOfBlock : List Nat → List Nat
  | b0 :: b1 :: b2 :: b3 :: rest => (((b0 * 256 + b1) * 256 + b2) * 256 + b3) :: wordsOfBlock rest
  | _ => []

/-- Message schedule: extend the 16 block words to 64. -/
def extendSchedule (w : List Nat) : List Nat :=
  (List.range 48).foldl
    (fun w _ =>
      w ++ [w32 (smallS1 (w.getD (w.length - 2) 0) + w.getD (w.length - 7) 0 +
                 smallS0 (w.getD (w.length - 15) 0) + w.getD (w.length - 16) 0)])
    w

def shaCompress (st : Sha8) (block : List Nat) : Sha8 :=
  let ws := extendSchedule (wordsOfBlock block)
  let r := (shaK.zip ws).foldl shaRound st
  ⟨w32 (st.a + r.a), w32 (st.b + r.b), w32 (st.c + r.c), w32 (st.d + r.d),
   w32 (st.e + r.e), w32 (st.f + r.f), w32 (st.g + r.g), w32 (st.h + r.h)⟩

/-- 64-byte blocks, by structural recursion on a fuel bound; every step
consumes 64 bytes, so `fuel > bs.length` always suffices. -/
def chunks64Fuel : Nat → List Nat → List (List Nat)
  | 0, _ => []
  | _ + 1, [] => []
  | fuel + 1, b :: rest => ((b :: rest).take 64) :: chunks64Fuel fuel ((b :: rest).drop 64)

def chunks64 (bs : List Nat) : List (List Nat) := chunks64Fuel (bs.length + 1) bs

/-- Big-endian byte rendering of a Nat over `n` bytes. -/
def beBytes (n : Nat) (v : Nat) : List Nat :=
  (List.range n).map fun i => v / 256 ^ (n - 1 - i) % 256

/-- SHA-256 padding: `0x80`, zeros to 56 mod 64, the bit length over 8 bytes. -/
def shaPad (msg : List Nat) : List Nat :=
  msg ++ 128 :: List.replicate ((119 - msg.length % 64) % 64) 0 ++ beBytes 8 (8 * msg.length)

def wordBytes (w : Nat) : List Nat := beBytes 4 w

def digestBytes (st : Sha8) : List Nat :=
  wordBytes st.a ++ wordBytes st.b ++ wordBytes st.c ++ wordBytes st.d ++
  wordBytes st.e ++ wordBytes st.f ++ wordBytes st.g ++ wordBytes st.h

/-- SHA-256 digest (32 bytes) of a byte list. -/
def sha256Bytes (msg : List Nat) : List Nat :=
  digestBytes ((chunks64 (shaPad msg)).foldl shaCompress shaInit)

/-- UTF-8 encoding of one character (`str.encode()`). -/
def utf8Char (c : Char) : List Nat :=
  let n := c.toNat
  if n < 128 then [n]
  else if n < 2048 then [192 + n / 64, 128 + n % 64]
  else if n < 65536 then [224 + n / 4096, 128 + n / 64 % 64, 128 + n % 64]
  else [240 + n / 262144, 128 + n / 4096 % 64, 128 + n / 64 % 64, 128 + n % 64]

def utf8Bytes (s : String) : List Nat := s.data.flatMap utf8Char

def hexDigitChar (n : Nat) : Char := if n < 10 then digitCharOf n else Char.ofNat (87 + n)

def byteHex (b : Nat) : List Char := [hexDigitChar (b / 16), hexDigitChar (b % 16)]

/-- `hashlib.sha256(...).hexdigest()`. -/
def sha256Hex (msg : List Nat) : List Char := (sha256Bytes msg).flatMap byteHex

/-- The default constructor salt. -/
def defaultSalt : String := "cleanclinic_salt_2024"

/-- `hash_text` from `_hash_pii`: null and empty cells pass through, other
cells become the first 16 hex characters of `sha256(str(text) + salt)`. -/
def hashText (salt : String) (c : Cell) : Cell :=
  match rawOf c with
  | none => c
  | some r => .str (String.mk ((sha256Hex (utf8Bytes (r ++ salt))).take 16))

/-! ## UMLS mapping tables (`UMLSMapper._generate_mappings`)

The two tables are Python `defaultdict(list)` values; we model them as
association lists in insertion order.  A defaultdict ACCESS of an absent
key inserts an empty list — the relation loop reads `cui_to_snomed[cui2]`
under a guard that only checks `cui2 in cui_to_icd10`, so the access
itself can create an empty SNOMED entry that later guards observe. -/

abbrev Tbl := List (String × List String)

def tblGet (t : Tbl) (k : String) : List String := (List.lookup k t).getD []

def tblHas (t : Tbl) (k : String) : Bool := (List.lookup k t).isSome

/-- defaultdict access of an absent key inserts an empty list. -/
def tblTouch (t : Tbl) (k : String) : Tbl :=
  if tblHas t k then t else t ++ [(k, [])]

def tblAppendAt : Tbl → String → String → Tbl
  | [], k, c => [(k, [c])]
  | (k1, cs) :: rest, k, c =>
    if k1 = k then (k1, cs ++ [c]) :: rest else (k1, cs) :: tblAppendAt rest k c

/-- `if code not in d[cui]: d[cui].append(code)` on a `defaultdict(list)`. -/
def addCode (t : Tbl) (k c : String) : Tbl :=
  if c ∈ tblGet t k then tblTouch t k else tblAppendAt t k c

/-- One MRCONSO row: rows with fewer than 14 fields are skipped; field 0 is
the CUI, field 11 the source vocabulary, field 13 the code. -/
def consoStep (ti : Tbl × Tbl) (row : List String) : Tbl × Tbl :=
  if row.length < 14 then ti
  else
    let cui := row.getD 0 ""
    let sab := row.getD 11 ""
    let code := row.getD 13 ""
    if sab = "SNOMEDCT_US" then (addCode ti.1 cui code, ti.2)
    else if sab = "ICD10CM" then (ti.1, addCode ti.2 cui code)
    else ti

def methodMatches (method rel : String) : Bool :=
  (method = "RO" && rel = "RO") || (method = "PAR_CHD" && (rel = "PAR" || rel = "CHD"))

/-- One MRREL row: rows with fewer than 8 fields are skipped; field 0 is
CUI1, field 4 CUI2, field 7 the relation.  The union fires only when the
relation matches the method AND `cui1 in cui_to_snomed` AND
`cui2 in cui_to_icd10` — note the asymmetry. -/
def relStep (method : String) (ti : Tbl × Tbl) (row : List String) : Tbl × Tbl :=
  if row.length < 8 then ti
  else if methodMatches method (row.getD 7 "") &&
          tblHas ti.1 (row.getD 0 "") && tblHas ti.2 (row.getD 4 "") then
    ((tblGet ti.1 (row.getD 4 "")).foldl
       (fun t c => addCode t (row.getD 0 "") c) (tblTouch ti.1 (row.getD 4 "")),
     (tblGet ti.2 (row.getD 4 "")).foldl
       (fun t c => addCode t (row.getD 0 "") c) ti.2)
  else ti

/-- The MRCONSO pass. -/
def consoPhase (consoRows : List (List String)) : Tbl × Tbl :=
  consoRows.foldl consoStep ([], [])

/-- `_generate_mappings`; `relRows = none` models a missing MRREL file. -/
def generateMappings (method : String) (consoRows : List (List String))
    (relRows : Option (List (List String))) : Tbl × Tbl :=
  let ti := consoPhase consoRows
  if method = "RO" || method = "PAR_CHD" then
    match relRows with
    | some rows => rows.foldl (relStep method) ti
    | none => ti
  else ti

/-! ## The DataFrame model and the pipeline stages

A batch is an ordered list of named columns; a column is either an object
column of cells or a datetime64 column of optional timestamps, carried in
whole days since the epoch (`shift_dates` shifts by whole days; the
timestamp rendering that `astype(str)` would produce is taken to be the
integer rendering, which no theorem inspects). -/

inductive Col where
  | obj (cells : List Cell)
  | dt (cells : List (Option Int))
  deriving DecidableEq, Repr

def colLen : Col → Nat
  | .obj cs => cs.length
  | .dt cs => cs.length

abbrev DF := List (String × Col)

/-- `len(df)`: the common column length (pandas keeps all columns equal). -/
def rowCount : DF → Nat
  | [] => 0
  | (_, c) :: _ => colLen c

/-- Every column holds exactly `n` cells. -/
def WellFormed (df : DF) (n : Nat) : Prop := ∀ p ∈ df, colLen p.2 = n

/-- The cells of a column as the scrubber sees them. -/
def colCells : Col → List Cell
  | .obj cs => cs
  | .dt cs => cs.map fun o => match o with | none => Cell.null | some d => Cell.num (toString d)

/-- `isna().sum()`: counts both null kinds. -/
def nullCount (cells : List Cell) : Nat := (cells.filter isNaCell).length

def colCellsOfName (df : DF) (nm : String) : List Cell :=
  ((List.lookup nm df).map colCells).getD []

/-! ### PII scrubbing (`PIIScrubber.transform`) -/

/-- `_scrub_column` on the cell list of one column (an unknown mode is
logged and the series returned unchanged). -/
def scrubCells (mode salt : String) (st : AnonMap) (cells : List Cell) : AnonMap × List Cell :=
  if mode = "remove" then (st, cells.map removeCell)
  else if mode = "mask" then (st, cells.map maskCell)
  else if mode = "hash" then (st, cells.map (hashText salt))
  else if mode = "anonymize" then anonymizeCells st cells
  else (st, cells)

/-- `_scrub_column` on a column: the four known modes produce an object
column; an unknown mode leaves the column as is. -/
def scrubColumn (mode salt : String) (st : AnonMap) (c : Col) : AnonMap × Col :=
  if mode = "remove" || mode = "mask" || mode = "hash" || mode = "anonymize" then
    let r := scrubCells mode salt st (colCells c)
    (r.1, .obj r.2)
  else (st, c)

/-- `_identify_pii_columns`: columns in order; a sampling error in any
content check aborts the whole transform. -/
def identifyPIIColumns : DF → Except PdError (List String)
  | [] => .ok []
  | (nm, c) :: rest =>
    if nameMatchesPII nm then (identifyPIIColumns rest).map (nm :: ·)
    else
      match columnContainsPII (colCells c) with
      | .error e => .error e
      | .ok true => (identifyPIIColumns rest).map (nm :: ·)
      | .ok false => identifyPIIColumns rest

/-- `_add_scrubbing_metadata`: five provenance columns broadcast over the
index.  The affected-rows percentage is a float; its value is rendered
here with natural division, which no theorem inspects. -/
def addMetadataCols (mode now : String) (piiCols : List String) (df : DF) : DF :=
  let n := rowCount df
  let scrubbedRows := piiCols.foldl
    (fun acc nm => max acc (n - nullCount (colCellsOfName df nm))) 0
  let pct := if n > 0 then scrubbedRows * 100 / n else 0
  df ++ [("pii_scrubbing_mode", .obj (List.replicate n (.str mode))),
         ("pii_scrubbing_timestamp", .obj (List.replicate n (.str now))),
         ("pii_columns_scrubbed", .obj (List.replicate n (.str (String.intercalate "," piiCols)))),
         ("pii_rows_affected", .obj (List.replicate n (.num (toString scrubbedRows)))),
         ("pii_scrubbing_percentage", .obj (List.replicate n (.num (toString pct))))]

/-- `for column in pii_columns: scrubbed_df[column] = self._scrub_column(...)`:
identified columns are scrubbed in place, in frame order, threading the
anonymization map. -/
def scrubColumns (mode salt : String) (piiCols : List String) (st : AnonMap) :
    DF → AnonMap × DF
  | [] => (st, [])
  | p :: rest =>
    let s := if p.1 ∈ piiCols then scrubColumn mode salt st p.2 else (st, p.2)
    let r := scrubColumns mode salt piiCols s.1 rest
    (r.1, (p.1, s.2) :: r.2)

/-- `PIIScrubber.transform`: identify, scrub each identified column in
place (threading the anonymization map in column order), add metadata.
With no identified columns the copy is returned as is, without metadata. -/
def piiTransform (mode salt now : String) (st : AnonMap) (df : DF) :
    Except PdError (AnonMap × DF) :=
  match identifyPIIColumns df with
  | .error e => .error e
  | .ok [] => .ok (st, df)
  | .ok piiCols =>
    let r := scrubColumns mode salt piiCols st df
    .ok (r.1, addMetadataCols mode now piiCols r.2)

/-! ### Terminology enrichment (`UMLSMapper.transform`) -/

/-- `_find_clinical_code_columns`. -/
def findCodeColumns : DF → Except PdError (List String)
  | [] => .ok []
  | (nm, c) :: rest =>
    if nameMatchesCode nm then (findCodeColumns rest).map (nm :: ·)
    else
      match columnContainsCodes (colCells c) with
      | .error e => .error e
      | .ok true => (findCodeColumns rest).map (nm :: ·)
      | .ok false => findCodeColumns rest

/-- `_find_cui_for_code`, verbatim: the simplified lookup always returns
`None`. -/
def findCuiForCode (_code : String) : Option String := none

def setColCell (c : Col) (i : Nat) (v : Cell) : Col :=
  match c with
  | .obj cs => .obj (cs.set i v)
  | .dt cs => .obj ((colCells (.dt cs)).set i v)

/-- `df.loc[idx, col] = v`. -/
def setCellAt (df : DF) (nm : String) (i : Nat) (v : Cell) : DF :=
  df.map fun p => if p.1 = nm then (p.1, setColCell p.2 i v) else p

/-- The four empty sibling columns `_enrich_code_column` adds first. -/
def umlsSiblingCols (df : DF) (nm : String) : DF :=
  [(nm ++ "_umls_cui", .obj (List.replicate (rowCount df) (.str ""))),
   (nm ++ "_umls_snomed", .obj (List.replicate (rowCount df) (.str ""))),
   (nm ++ "_umls_icd10", .obj (List.replicate (rowCount df) (.str ""))),
   (nm ++ "_umls_concept", .obj (List.replicate (rowCount df) (.str "")))]

/-- The body of the `for idx, code in df[column].items()` loop: a cell
passing `pd.notna` whose CUI resolves has its three mapping cells filled
(`_find_cui_for_code` is constantly `None`, so no cell is ever filled). -/
def enrichSetStep (snomedT icd10T : Tbl) (nm : String) (d : DF) (ci : Nat × Cell) : DF :=
  match ci.2 with
  | .null => d
  | .noneVal => d
  | c =>
    match findCuiForCode (cellStr c).trim with
    | none => d
    | some cui =>
      setCellAt
        (setCellAt (setCellAt d (nm ++ "_umls_cui") ci.1 (.str cui))
          (nm ++ "_umls_snomed") ci.1
          (.str (String.intercalate "," (tblGet snomedT cui))))
        (nm ++ "_umls_icd10") ci.1
        (.str (String.intercalate "," (tblGet icd10T cui)))

/-- `_enrich_code_column`: add the four sibling columns, then walk the code
column filling mappings when the tables are loaded. -/
def enrichCodeColumn (loaded : Bool) (snomedT icd10T : Tbl) (df : DF) (nm : String) : DF :=
  if loaded then
    (colCellsOfName (df ++ umlsSiblingCols df nm) nm).enum.foldl
      (enrichSetStep snomedT icd10T nm) (df ++ umlsSiblingCols df nm)
  else df ++ umlsSiblingCols df nm

/-- `UMLSMapper.transform`. -/
def umlsTransform (loaded : Bool) (snomedT icd10T : Tbl) (df : DF) : Except PdError DF :=
  match findCodeColumns df with
  | .error e => .error e
  | .ok [] => .ok df
  | .ok codeCols => .ok (codeCols.foldl (enrichCodeColumn loaded snomedT icd10T) df)

/-! ### Date shifting (`shift_dates`) and the orchestrator
(`BronzeToSilverProcessor.process_file`) -/

/-- pandas timestamp bounds in whole days since the epoch: the last and
first fully representable whole-day midnights (`pd.Timestamp.min` is late
on day -106752 in 1677, `pd.Timestamp.max` early on day 106752 in 2262);
a shift past them raises `OutOfBoundsDatetime`. -/
def pdMaxDays : Int := 106751

def pdMinDays : Int := -106751

inductive ShiftError where
  | outOfBoundsDatetime
  deriving DecidableEq, Repr

/-- `df[col] + timedelta(days=days)` on one datetime column. -/
def shiftCellsDt (days : Int) (cs : List (Option Int)) : Except ShiftError (List (Option Int)) :=
  if cs.all fun c =>
      match c with
      | none => true
      | some d => decide (pdMinDays ≤ d + days ∧ d + days ≤ pdMaxDays)
  then .ok (cs.map (Option.map (· + days)))
  else .error .outOfBoundsDatetime

/-- `shift_dates` mutates the frame in place, column by column; an
overflow aborts the loop, leaving every earlier datetime column already
shifted.  Returns the frame as the orchestrator observes it afterwards,
with an error flag. -/
def shiftDatesRun (days : Int) : DF → DF × Bool
  | [] => ([], false)
  | (nm, Col.obj cs) :: rest =>
    let r := shiftDatesRun days rest
    ((nm, Col.obj cs) :: r.1, r.2)
  | (nm, Col.dt cs) :: rest =>
    match shiftCellsDt days cs with
    | .ok cs1 =>
      let r := shiftDatesRun days rest
      ((nm, Col.dt cs1) :: r.1, r.2)
    | .error _ => ((nm, Col.dt cs) :: rest, true)

/-- A `process_file` stage with its try/except, for the stages that build
their result on a copy of the frame (`PIIScrubber.transform`,
`GeoEnricher.transform` and `UMLSMapper.transform` all start from
`df.copy()` or return the input untouched): on an internal error the local
`df` keeps its pre-stage value. -/
def runStageCatch (f : DF → Except PdError DF) (df : DF) : DF :=
  match f df with
  | .ok out => out
  | .error _ => df

/-- The PII stage with its try/except: the frame that reaches the next
stage is the scrubbed copy on success, the untouched input on failure. -/
def piiStage (mode salt now : String) (st : AnonMap) (df : DF) : DF :=
  match piiTransform mode salt now st df with
  | .ok r => r.2
  | .error _ => df

/-- The per-batch stage sequence of `process_file`: PII scrub, date shift,
geo enrich (an arbitrary copy-based stage `g`), terminology enrich, then
the three provenance columns.  The date-shift stage carries whatever
`shift_dates` left in the frame, error or not, since it mutates in place. -/
def processBatch (mode salt now : String) (st : AnonMap) (days : Int)
    (g : DF → Except PdError DF) (loaded : Bool) (snomedT icd10T : Tbl)
    (srcFile : String) (df : DF) : DF :=
  let d1 := piiStage mode salt now st df
  let d2 := (shiftDatesRun days d1).1
  let d3 := runStageCatch g d2
  let d4 := runStageCatch (umlsTransform loaded snomedT icd10T) d3
  let n := rowCount d4
  d4 ++ [("source_file", .obj (List.replicate n (.str srcFile))),
         ("processed_date", .obj (List.replicate n (.str now))),
         ("processing_pipeline", .obj (List.replicate n (.str "bronze_to_silver")))]

/-- A lowercase hexadecimal digit, as produced by `hexdigest()`. -/
def isHexDigitC (c : Char) : Bool := c.isDigit || memberOf "abcdef" c

deriving instance DecidableEq for Except

/-! # Supporting lemmas -/

theorem tblGet_cons (k : String) (v : List String) (t : Tbl) (x : String) :
    tblGet ((k, v) :: t) x = if x = k then v else tblGet t x := by
  by_cases h : x = k
  · simp [tblGet, List.lookup, h]
  · simp [tblGet, List.lookup, h, beq_false_of_ne h]

theorem tblHas_cons (k : String) (v : List String) (t : Tbl) (x : String) :
    tblHas ((k, v) :: t) x = (x = k || tblHas t x) := by
  by_cases h : x = k
  · simp [tblHas, List.lookup, h]
  · simp [tblHas, List.lookup, h, beq_false_of_ne h]

theorem tblGet_nil (x : String) : tblGet [] x = [] := rfl

theorem tblGet_tblAppendAt (t : Tbl) (k c x : String) :
    tblGet (tblAppendAt t k c) x = if x = k then tblGet t x ++ [c] else tblGet t x := by
  induction t with
  | nil =>
    by_cases h : x = k <;> simp [tblAppendAt, tblGet_cons, tblGet_nil, h]
  | cons a t ih =>
    obtain ⟨ka, va⟩ := a
    by_cases hk : ka = k
    · subst hk
      by_cases hx : x = ka <;> simp [tblAppendAt, tblGet_cons, hx]
    · by_cases hx : x = ka
      · have : ¬ x = k := fun hc => hk (hx ▸ hc)
        simp [tblAppendAt, hk, tblGet_cons, hx, this]
      · simp [tblAppendAt, hk, tblGet_cons, hx, ih]

theorem lookup_none_append_get (t : Tbl) (k x : String) (h : List.lookup k t = none) :
    tblGet (t ++ [(k, [])]) x = tblGet t x := by
  induction t with
  | nil =>
    by_cases hx : x = k <;> simp [tblGet_cons, tblGet_nil, hx]
  | cons a t ih =>
    obtain ⟨ka, va⟩ := a
    have hka : ¬ k = ka := by
      intro hkk
      simp [List.lookup, hkk] at h
    have h2 : List.lookup k t = none := by
      simpa [List.lookup, beq_false_of_ne hka] using h
    by_cases hx : x = ka <;> simp [List.cons_append, tblGet_cons, hx, ih h2]

theorem tblGet_tblTouch (t : Tbl) (k x : String) :
    tblGet (tblTouch t k) x = tblGet t x := by
  unfold tblTouch
  split
  · rfl
  · next h =>
    have hn : List.lookup k t = none := by
      rcases hL : List.lookup k t with _ | v
      · rfl
      · simp [tblHas, hL] at h
    exact lookup_none_append_get t k x hn

theorem tblGet_addCode (t : Tbl) (k c x : String) :
    tblGet (addCode t k c) x =
      if c ∈ tblGet t k then tblGet t x
      else if x = k then tblGet t x ++ [c] else tblGet t x := by
  unfold addCode
  split
  · next h => simp [h, tblGet_tblTouch]
  · next h => simp [h, tblGet_tblAppendAt]

theorem mem_tblGet_addCode_self (t : Tbl) (k c : String) :
    c ∈ tblGet (addCode t k c) k := by
  rw [tblGet_addCode]
  split
  · next h => exact h
  · simp

theorem tblGet_addCode_mono {t : Tbl} {k c x v : String}
    (h : v ∈ tblGet t x) : v ∈ tblGet (addCode t k c) x := by
  rw [tblGet_addCode]
  split
  · exact h
  · split
    · exact List.mem_append_left _ h
    · exact h

theorem tblGet_addCode_subset {t : Tbl} {k c x v : String}
    (h : v ∈ tblGet (addCode t k c) x) : v ∈ tblGet t x ∨ v = c := by
  rw [tblGet_addCode] at h
  revert h
  split
  · exact fun h => Or.inl h
  · split
    · intro h
      rcases List.mem_append.1 h with h | h
      · exact Or.inl h
      · simp at h
        exact Or.inr h
    · exact fun h => Or.inl h

theorem foldl_addCode_mono (k : String) (cs : List String) {t : Tbl} {x v : String}
    (h : v ∈ tblGet t x) :
    v ∈ tblGet (cs.foldl (fun t2 y => addCode t2 k y) t) x := by
  induction cs generalizing t with
  | nil => exact h
  | cons c cs ih => exact ih (tblGet_addCode_mono h)

theorem foldl_addCode_mem (k : String) (cs : List String) {t : Tbl} {c : String}
    (hc : c ∈ cs) :
    c ∈ tblGet (cs.foldl (fun t2 y => addCode t2 k y) t) k := by
  induction cs generalizing t with
  | nil => cases hc
  | cons d cs ih =>
    rcases List.mem_cons.1 hc with h | h
    · subst h
      exact foldl_addCode_mono k cs (mem_tblGet_addCode_self t k c)
    · exact ih h

theorem foldl_addCode_subset (k : String) (cs : List String) {t : Tbl} {x v : String}
    (h : v ∈ tblGet (cs.foldl (fun t2 y => addCode t2 k y) t) x) :
    v ∈ tblGet t x ∨ v ∈ cs := by
  induction cs generalizing t with
  | nil => exact Or.inl h
  | cons c cs ih =>
    rcases ih h with h2 | h2
    · rcases tblGet_addCode_subset h2 with h3 | h3
      · exact Or.inl h3
      · exact Or.inr (h3 ▸ List.mem_cons_self c cs)
    · exact Or.inr (List.mem_cons_of_mem c h2)

theorem relStep_snomed_mono {m : String} {ti : Tbl × Tbl} {row : List String}
    {x v : String} (h : v ∈ tblGet ti.1 x) : v ∈ tblGet (relStep m ti row).1 x := by
  unfold relStep
  split
  · exact h
  · split
    · exact foldl_addCode_mono _ _ (by rwa [tblGet_tblTouch])
    · exact h

theorem relStep_icd_mono {m : String} {ti : Tbl × Tbl} {row : List String}
    {x v : String} (h : v ∈ tblGet ti.2 x) : v ∈ tblGet (relStep m ti row).2 x := by
  unfold relStep
  split
  · exact h
  · split
    · exact foldl_addCode_mono _ _ h
    · exact h

theorem foldl_relStep_snomed_mono (m : String) (rows : List (List String))
    {ti : Tbl × Tbl} {x v : String} (h : v ∈ tblGet ti.1 x) :
    v ∈ tblGet ((rows.foldl (relStep m) ti).1) x := by
  induction rows generalizing ti with
  | nil => exact h
  | cons r rows ih => exact ih (relStep_snomed_mono h)

theorem foldl_relStep_icd_mono (m : String) (rows : List (List String))
    {ti : Tbl × Tbl} {x v : String} (h : v ∈ tblGet ti.2 x) :
    v ∈ tblGet ((rows.foldl (relStep m) ti).2) x := by
  induction rows generalizing ti with
  | nil => exact h
  | cons r rows ih => exact ih (relStep_icd_mono h)

theorem relStep_union {m : String} {ti : Tbl × Tbl} {row : List String}
    (hlen : 8 ≤ row.length)
    (hm : methodMatches m (row.getD 7 "") = true)
    (h1 : tblHas ti.1 (row.getD 0 "") = true)
    (h2 : tblHas ti.2 (row.getD 4 "") = true) :
    (∀ v ∈ tblGet ti.1 (row.getD 4 ""), v ∈ tblGet (relStep m ti row).1 (row.getD 0 "")) ∧
    (∀ v ∈ tblGet ti.2 (row.getD 4 ""), v ∈ tblGet (relStep m ti row).2 (row.getD 0 "")) := by
  unfold relStep
  rw [if_neg (by omega), if_pos (by rw [hm, h1, h2]; rfl)]
  exact ⟨fun v hv => foldl_addCode_mem _ _ hv, fun v hv => foldl_addCode_mem _ _ hv⟩

theorem relStep_snomed_subset {m : String} {ti : Tbl × Tbl} {row : List String}
    {x v : String} (h : v ∈ tblGet (relStep m ti row).1 x) :
    v ∈ tblGet ti.1 x ∨ v ∈ tblGet ti.1 (row.getD 4 "") := by
  revert h
  unfold relStep
  split
  · exact fun h => Or.inl h
  · split
    · intro h
      rcases foldl_addCode_subset _ _ h with h2 | h2
      · exact Or.inl (by rwa [tblGet_tblTouch] at h2)
      · exact Or.inr h2
    · exact fun h => Or.inl h

theorem relStep_icd_subset {m : String} {ti : Tbl × Tbl} {row : List String}
    {x v : String} (h : v ∈ tblGet (relStep m ti row).2 x) :
    v ∈ tblGet ti.2 x ∨ v ∈ tblGet ti.2 (row.getD 4 "") := by
  revert h
  unfold relStep
  split
  · exact fun h => Or.inl h
  · split
    · intro h
      rcases foldl_addCode_subset _ _ h with h2 | h2
      · exact Or.inl h2
      · exact Or.inr h2
    · exact fun h => Or.inl h

theorem anonymizeCells_length (m : AnonMap) (cs : List Cell) :
    (anonymizeCells m cs).2.length = cs.length := by
  induction cs generalizing m with
  | nil => rfl
  | cons c cs ih => simp [anonymizeCells, ih]

theorem scrubCells_length (mode salt : String) (st : AnonMap) (cs : List Cell) :
    (scrubCells mode salt st cs).2.length = cs.length := by
  unfold scrubCells
  split
  · simp
  · split
    · simp
    · split
      · simp
      · split
        · exact anonymizeCells_length st cs
        · rfl

theorem colCells_length (c : Col) : (colCells c).length = colLen c := by
  cases c <;> simp [colCells, colLen]

theorem scrubColumn_colLen (mode salt : String) (st : AnonMap) (c : Col) :
    colLen (scrubColumn mode salt st c).2 = colLen c := by
  unfold scrubColumn
  split
  · show (scrubCells mode salt st (colCells c)).2.length = colLen c
    rw [scrubCells_length, colCells_length]
  · rfl

theorem scrubColumns_wf {mode salt : String} {piiCols : List String} {st : AnonMap}
    {df : DF} {n : Nat} (hwf : WellFormed df n) :
    WellFormed (scrubColumns mode salt piiCols st df).2 n := by
  induction df generalizing st with
  | nil => intro p hp; cases hp
  | cons q rest ih =>
    intro p hp
    rcases List.mem_cons.1 hp with h | h
    · subst h
      show colLen (if q.1 ∈ piiCols then scrubColumn mode salt st q.2 else (st, q.2)).2 = n
      split
      · rw [scrubColumn_colLen]
        exact hwf q (List.mem_cons_self q rest)
      · exact hwf q (List.mem_cons_self q rest)
    · exact ih (fun r hr => hwf r (List.mem_cons_of_mem q hr)) p h

theorem scrubColumns_rowCount (mode salt : String) (piiCols : List String)
    (st : AnonMap) (df : DF) :
    rowCount (scrubColumns mode salt piiCols st df).2 = rowCount df := by
  cases df with
  | nil => rfl
  | cons q rest =>
    show colLen (if q.1 ∈ piiCols then scrubColumn mode salt st q.2 else (st, q.2)).2 =
      colLen q.2
    split
    · rw [scrubColumn_colLen]
    · rfl

theorem wf_append {df ext : DF} {n : Nat} (h1 : WellFormed df n)
    (h2 : WellFormed ext n) : WellFormed (df ++ ext) n := by
  intro p hp
  rcases List.mem_append.1 hp with h | h
  · exact h1 p h
  · exact h2 p h

theorem rowCount_eq_of_wf {df : DF} {n : Nat} (hwf : WellFormed df n)
    (hne : df ≠ []) : rowCount df = n := by
  cases df with
  | nil => exact absurd rfl hne
  | cons q rest => exact hwf q (List.mem_cons_self q rest)

theorem addMetadataCols_wf {mode now : String} {piiCols : List String} {df : DF}
    {n : Nat} (hwf : WellFormed df n) (hrc : rowCount df = n) :
    WellFormed (addMetadataCols mode now piiCols df) n := by
  unfold addMetadataCols
  refine wf_append hwf ?_
  intro p hp
  simp only [List.mem_cons] at hp
  rcases hp with h | h | h | h | h | h <;> first
    | (subst h; simp [colLen, hrc])
    | cases h

theorem piiTransform_wf {mode salt now : String} {st : AnonMap} {df : DF} {n : Nat}
    {st2 : AnonMap} {df2 : DF} (hwf : WellFormed df n)
    (h : piiTransform mode salt now st df = .ok (st2, df2)) : WellFormed df2 n := by
  unfold piiTransform at h
  cases hid : identifyPIIColumns df with
  | error e => rw [hid] at h; cases h
  | ok cols =>
    rw [hid] at h
    cases cols with
    | nil =>
      simp only [Except.ok.injEq, Prod.mk.injEq] at h
      rw [← h.2]
      exact hwf
    | cons c cs =>
      simp only [Except.ok.injEq, Prod.mk.injEq] at h
      have hne : df ≠ [] := by
        intro hdf
        subst hdf
        simp [identifyPIIColumns] at hid
      rw [← h.2]
      exact addMetadataCols_wf (scrubColumns_wf hwf)
        (by rw [scrubColumns_rowCount]; exact rowCount_eq_of_wf hwf hne)

theorem shiftDatesRun_wf {days : Int} {df : DF} {n : Nat}
    (hwf : WellFormed df n) (hok : (shiftDatesRun days df).2 = false) :
    WellFormed (shiftDatesRun days df).1 n := by
  induction df with
  | nil => intro p hp; cases hp
  | cons q rest ih =>
    obtain ⟨nm, col⟩ := q
    have hhd := hwf (nm, col) (List.mem_cons_self _ rest)
    have hrest : WellFormed rest n := fun r hr => hwf r (List.mem_cons_of_mem _ hr)
    cases col with
    | obj cs =>
      have hok2 : (shiftDatesRun days rest).2 = false := by
        simpa [shiftDatesRun] using hok
      intro p hp
      simp only [shiftDatesRun, List.mem_cons] at hp
      rcases hp with h | h
      · subst h; exact hhd
      · exact ih hrest hok2 p h
    | dt cs =>
      cases hsc : shiftCellsDt days cs with
      | ok cs1 =>
        have hok2 : (shiftDatesRun days rest).2 = false := by
          simpa [shiftDatesRun, hsc] using hok
        have hlen : cs1.length = cs.length := by
          unfold shiftCellsDt at hsc
          split at hsc
          · simp only [Except.ok.injEq] at hsc
            rw [← hsc]
            simp
          · cases hsc
        intro p hp
        simp only [shiftDatesRun, hsc, List.mem_cons] at hp
        rcases hp with h | h
        · subst h
          show cs1.length = n
          rw [hlen]
          exact hhd
        · exact ih hrest hok2 p h
      | error err => simp [shiftDatesRun, hsc] at hok

theorem setColCell_colLen (c : Col) (i : Nat) (v : Cell) :
    colLen (setColCell c i v) = colLen c := by
  cases c <;> simp [setColCell, colLen, colCells]

theorem setCellAt_wf {df : DF} {n : Nat} (nm : String) (i : Nat) (v : Cell)
    (hwf : WellFormed df n) : WellFormed (setCellAt df nm i v) n := by
  intro p hp
  rcases List.mem_map.1 hp with ⟨q, hq, hpq⟩
  rw [← hpq]
  split
  · rw [setColCell_colLen]
    exact hwf q hq
  · exact hwf q hq

theorem setCellAt_rowCount (df : DF) (nm : String) (i : Nat) (v : Cell) :
    rowCount (setCellAt df nm i v) = rowCount df := by
  cases df with
  | nil => rfl
  | cons q rest =>
    show rowCount ((if q.1 = nm then (q.1, setColCell q.2 i v) else q) :: _) = colLen q.2
    split
    · exact setColCell_colLen q.2 i v
    · rfl

theorem enrichSetStep_eq (sT iT : Tbl) (nm : String) (d : DF) (ci : Nat × Cell) :
    enrichSetStep sT iT nm d ci = d := by
  obtain ⟨i, c⟩ := ci
  cases c <;> rfl

theorem foldl_enrichSetStep_eq (sT iT : Tbl) (nm : String) (ixs : List (Nat × Cell))
    (d : DF) : ixs.foldl (enrichSetStep sT iT nm) d = d := by
  induction ixs generalizing d with
  | nil => rfl
  | cons ix rest ih => rw [List.foldl_cons, enrichSetStep_eq, ih]

theorem enrichCodeColumn_eq (loaded : Bool) (sT iT : Tbl) (df : DF) (nm : String) :
    enrichCodeColumn loaded sT iT df nm = df ++ umlsSiblingCols df nm := by
  unfold enrichCodeColumn
  split
  · exact foldl_enrichSetStep_eq _ _ _ _ _
  · rfl

theorem enrichCodeColumn_wf {loaded : Bool} {sT iT : Tbl} {df : DF} {n : Nat}
    (nm : String) (hwf : WellFormed df n) (hrc : rowCount df = n) :
    WellFormed (enrichCodeColumn loaded sT iT df nm) n ∧
    rowCount (enrichCodeColumn loaded sT iT df nm) = n := by
  rw [enrichCodeColumn_eq]
  have hsib : WellFormed (umlsSiblingCols df nm) n := by
    intro p hp
    simp only [umlsSiblingCols, List.mem_cons] at hp
    rcases hp with h | h | h | h | h <;> first
      | (subst h; simp [colLen, hrc])
      | cases h
  refine ⟨wf_append hwf hsib, ?_⟩
  cases df with
  | nil =>
    show colLen (Col.obj (List.replicate (rowCount ([] : DF)) (.str ""))) = n
    simpa [colLen, rowCount] using hrc
  | cons q rest => exact hrc

theorem umlsTransform_wf {loaded : Bool} {sT iT : Tbl} {df : DF} {n : Nat} {df2 : DF}
    (hwf : WellFormed df n) (h : umlsTransform loaded sT iT df = .ok df2) :
    WellFormed df2 n := by
  unfold umlsTransform at h
  cases hfc : findCodeColumns df with
  | error e => rw [hfc] at h; cases h
  | ok cols =>
    rw [hfc] at h
    cases cols with
    | nil =>
      simp only [Except.ok.injEq] at h
      rw [← h]
      exact hwf
    | cons c cs =>
      simp only [Except.ok.injEq] at h
      have hne : df ≠ [] := by
        intro hdf
        subst hdf
        simp [findCodeColumns] at hfc
      rw [← h]
      have hrc := rowCount_eq_of_wf hwf hne
      clear h hfc hne
      induction (c :: cs) generalizing df with
      | nil => exact hwf
      | cons d ds ih =>
        have he := @enrichCodeColumn_wf loaded sT iT _ _ d hwf hrc
        exact ih he.1 he.2

theorem beBytes_length (n v : Nat) : (beBytes n v).length = n := by
  simp [beBytes]

theorem beBytes_lt (n v : Nat) : ∀ b ∈ beBytes n v, b < 256 := by
  intro b hb
  rcases List.mem_map.1 hb with ⟨i, _, hbi⟩
  rw [← hbi]
  exact Nat.mod_lt _ (by norm_num)

theorem digestBytes_length (st : Sha8) : (digestBytes st).length = 32 := by
  simp [digestBytes, wordBytes, beBytes_length]

theorem digestBytes_lt (st : Sha8) : ∀ b ∈ digestBytes st, b < 256 := by
  intro b hb
  simp only [digestBytes, wordBytes, List.mem_append] at hb
  rcases hb with ((((((h | h) | h) | h) | h) | h) | h) | h <;>
    exact beBytes_lt 4 _ b h

theorem sha256Bytes_length (msg : List Nat) : (sha256Bytes msg).length = 32 :=
  digestBytes_length _

theorem sha256Bytes_lt (msg : List Nat) : ∀ b ∈ sha256Bytes msg, b < 256 :=
  digestBytes_lt _

theorem byteHex_hex {b : Nat} (hb : b < 256) :
    ∀ ch ∈ byteHex b, isHexDigitC ch = true := by
  have hlt : ∀ m : Nat, m < 16 → isHexDigitC (hexDigitChar m) = true := by decide
  intro ch hch
  simp only [byteHex, List.mem_cons, List.not_mem_nil, or_false] at hch
  rcases hch with h | h
  · subst h
    exact hlt _ (Nat.div_lt_of_lt_mul (by omega))
  · subst h
    exact hlt _ (Nat.mod_lt _ (by norm_num))

theorem flatMap_byteHex_length (l : List Nat) : (l.flatMap byteHex).length = 2 * l.length := by
  induction l with
  | nil => rfl
  | cons b l ih =>
    simp only [List.flatMap_cons, List.length_append, ih, byteHex, List.length_cons]
    simp
    omega

theorem sha256Hex_length (msg : List Nat) : (sha256Hex msg).length = 64 := by
  unfold sha256Hex
  rw [flatMap_byteHex_length, sha256Bytes_length]

theorem sha256Hex_hex (msg : List Nat) : ∀ ch ∈ sha256Hex msg, isHexDigitC ch = true := by
  intro ch hch
  rcases List.mem_flatMap.1 hch with ⟨b, hb, hchb⟩
  exact byteHex_hex (sha256Bytes_lt msg b hb) ch hchb

theorem digitVal_digitCharOf : ∀ d : Nat, d < 10 → digitVal (digitCharOf d) = d := by
  decide

theorem digitsVal_append_singleton (l : List Char) (ch : Char) :
    digitsVal (l ++ [ch]) = 10 * digitsVal l + digitVal ch := by
  simp [digitsVal, List.foldl_append]

theorem digitsVal_natDigitsFuel : ∀ fuel n : Nat, n < fuel →
    digitsVal (natDigitsFuel fuel n) = n := by
  intro fuel
  induction fuel with
  | zero => omega
  | succ f ih =>
    intro n hn
    show digitsVal (natDigitsFuel (f + 1) n) = n
    unfold natDigitsFuel
    split
    · next h10 =>
      show digitsVal [digitCharOf n] = n
      simpa [digitsVal] using digitVal_digitCharOf n h10
    · next h10 =>
      have hdiv : n / 10 < n := Nat.div_lt_self (by omega) (by norm_num)
      rw [digitsVal_append_singleton, ih (n / 10) (by omega),
        digitVal_digitCharOf (n % 10) (Nat.mod_lt _ (by norm_num))]
      omega

theorem digitsVal_natDigits (n : Nat) : digitsVal (natDigits n) = n :=
  digitsVal_natDigitsFuel (n + 1) n (by omega)

theorem digitsVal_zeros (k : Nat) (l : List Char) :
    digitsVal (List.replicate k '0' ++ l) = digitsVal l := by
  induction k with
  | zero => rfl
  | succ k ih => exact ih

theorem digitsVal_zfill6 (n : Nat) : digitsVal (zfill6 n) = n := by
  unfold zfill6
  rw [digitsVal_zeros, digitsVal_natDigits]

theorem zfill6_inj {a b : Nat} (h : zfill6 a = zfill6 b) : a = b := by
  have := congrArg digitsVal h
  rwa [digitsVal_zfill6, digitsVal_zfill6] at this

theorem anonFor_inj {a b : Nat} (h : anonFor a = anonFor b) : a = b := by
  unfold anonFor at h
  have h2 : "ANON_".data ++ zfill6 a = "ANON_".data ++ zfill6 b :=
    congrArg String.data h
  exact zfill6_inj (List.append_cancel_left h2)

theorem natDigitsFuel_length_le : ∀ fuel n k : Nat, n < fuel → n < 10 ^ (k + 1) →
    (natDigitsFuel fuel n).length ≤ k + 1 := by
  intro fuel
  induction fuel with
  | zero => omega
  | succ f ih =>
    intro n k hn hk
    unfold natDigitsFuel
    split
    · simp
    · next h10 =>
      have hdiv : n / 10 < n := Nat.div_lt_self (by omega) (by norm_num)
      have hkpos : 1 ≤ k := by
        by_contra hc
        have : k = 0 := by omega
        subst this
        simp at hk
        omega
      obtain ⟨k2, rfl⟩ : ∃ k2, k = k2 + 1 := ⟨k - 1, by omega⟩
      have hlt : n / 10 < 10 ^ (k2 + 1) := by
        rw [Nat.div_lt_iff_lt_mul (by norm_num)]
        calc n < 10 ^ (k2 + 1 + 1) := hk
        _ = 10 ^ (k2 + 1) * 10 := by ring
      have := ih (n / 10) k2 (by omega) hlt
      simp only [List.length_append, List.length_cons, List.length_nil]
      omega

theorem zfill6_length_of_lt {n : Nat} (h : n < 1000000) : (zfill6 n).length = 6 := by
  have hle : (natDigits n).length ≤ 6 :=
    natDigitsFuel_length_le (n + 1) n 5 (by omega) (by norm_num; omega)
  simp only [zfill6, List.length_append, List.length_replicate]
  omega

theorem mapOfSeenAux_length (k : Nat) (rs : List String) :
    (mapOfSeenAux k rs).length = rs.length := by
  induction rs generalizing k with
  | nil => rfl
  | cons r rs ih => simp [mapOfSeenAux, ih]

theorem lookup_mapOfSeenAux_of_mem : ∀ (rs : List String) (k : Nat) (r : String),
    r ∈ rs → List.lookup r (mapOfSeenAux k rs) = some (anonFor (k + rs.indexOf r)) := by
  intro rs
  induction rs with
  | nil => intro k r h; cases h
  | cons a rs ih =>
    intro k r hmem
    by_cases h : r = a
    · subst h
      simp [mapOfSeenAux, List.lookup, List.indexOf_cons_self]
    · have hmem2 : r ∈ rs := by
        rcases List.mem_cons.1 hmem with hc | hc
        · exact absurd hc h
        · exact hc
      rw [List.indexOf_cons_ne _ (fun hc => h hc.symm)]
      show List.lookup r ((a, anonFor k) :: mapOfSeenAux (k + 1) rs) = _
      simp only [List.lookup, beq_false_of_ne h]
      rw [ih (k + 1) r hmem2]
      have he : k + 1 + List.indexOf r rs = k + (List.indexOf r rs).succ := by omega
      rw [he]

theorem lookup_mapOfSeenAux_of_not_mem : ∀ (rs : List String) (k : Nat) (r : String),
    r ∉ rs → List.lookup r (mapOfSeenAux k rs) = none := by
  intro rs
  induction rs with
  | nil => intro k r _; rfl
  | cons a rs ih =>
    intro k r hmem
    have h : ¬ r = a := fun hc => hmem (hc ▸ List.mem_cons_self a rs)
    show List.lookup r ((a, anonFor k) :: mapOfSeenAux (k + 1) rs) = none
    simp only [List.lookup, beq_false_of_ne h]
    exact ih (k + 1) r (fun hc => hmem (List.mem_cons_of_mem a hc))

theorem mapOfSeenAux_append (k : Nat) (rs : List String) (r : String) :
    mapOfSeenAux k (rs ++ [r]) = mapOfSeenAux k rs ++ [(r, anonFor (k + rs.length))] := by
  induction rs generalizing k with
  | nil => simp [mapOfSeenAux]
  | cons a rs ih =>
    show (a, anonFor k) :: mapOfSeenAux (k + 1) (rs ++ [r]) =
      ((a, anonFor k) :: mapOfSeenAux (k + 1) rs) ++ [(r, anonFor (k + (a :: rs).length))]
    rw [ih (k + 1), List.cons_append, List.length_cons]
    have he : k + (rs.length + 1) = k + 1 + rs.length := by omega
    rw [he]

theorem firstSeenFrom_suffix : ∀ (l : List String) (rs : List String),
    ∃ ext, firstSeenFrom rs l = rs ++ ext := by
  intro l
  induction l with
  | nil => exact fun rs => ⟨[], by simp [firstSeenFrom]⟩
  | cons r l ih =>
    intro rs
    show ∃ ext, firstSeenFrom (if r ∈ rs then rs else rs ++ [r]) l = rs ++ ext
    by_cases h : r ∈ rs
    · rw [if_pos h]
      exact ih rs
    · rw [if_neg h]
      rcases ih (rs ++ [r]) with ⟨ext, hext⟩
      exact ⟨[r] ++ ext, by rw [hext, List.append_assoc]⟩

theorem mem_firstSeenFrom_of_seen : ∀ (l : List String) (rs : List String) (x : String),
    x ∈ rs → x ∈ firstSeenFrom rs l := by
  intro l rs x hx
  rcases firstSeenFrom_suffix l rs with ⟨ext, hext⟩
  rw [hext]
  exact List.mem_append_left _ hx

theorem mem_firstSeenFrom : ∀ (l : List String) (rs : List String) (x : String),
    x ∈ l → x ∈ firstSeenFrom rs l := by
  intro l
  induction l with
  | nil => intro rs x h; cases h
  | cons r l ih =>
    intro rs x hx
    show x ∈ firstSeenFrom (if r ∈ rs then rs else rs ++ [r]) l
    rcases List.mem_cons.1 hx with h | h
    · subst h
      apply mem_firstSeenFrom_of_seen
      split
      · next hin => exact hin
      · exact List.mem_append_right _ (List.mem_singleton.2 rfl)
    · exact ih _ x h

theorem anonymizeText_none {m : AnonMap} {c : Cell} (hc : rawOf c = none) :
    anonymizeText m c = (m, c) := by
  unfold anonymizeText
  rw [hc]

theorem anonymizeText_some {m : AnonMap} {c : Cell} {r : String}
    (hc : rawOf c = some r) :
    anonymizeText m c =
      match List.lookup r m with
      | some v => (m, .str v)
      | none => (m ++ [(r, anonFor m.length)], .str (anonFor m.length)) := by
  unfold anonymizeText
  rw [hc]

theorem lookup_mapOfSeen_of_mem (rs : List String) (r : String) (h : r ∈ rs) :
    List.lookup r (mapOfSeen rs) = some (anonFor (rs.indexOf r)) := by
  simpa [mapOfSeen] using lookup_mapOfSeenAux_of_mem rs 0 r h

theorem lookup_mapOfSeen_of_not_mem (rs : List String) (r : String) (h : r ∉ rs) :
    List.lookup r (mapOfSeen rs) = none :=
  lookup_mapOfSeenAux_of_not_mem rs 0 r h

theorem mapOfSeen_length (rs : List String) : (mapOfSeen rs).length = rs.length :=
  mapOfSeenAux_length 0 rs

theorem mapOfSeen_append (rs : List String) (r : String) :
    mapOfSeen (rs ++ [r]) = mapOfSeen rs ++ [(r, anonFor rs.length)] := by
  simpa [mapOfSeen] using mapOfSeenAux_append 0 rs r

/-- The central characterization of `_anonymize_pii`: starting from a map
whose keys are the already-seen raw values in first-seen order, the run
extends the key list by the new first occurrences and maps every non-null
non-empty cell to the pseudonym of its raw value's first-seen rank. -/
theorem anonymizeCells_spec : ∀ (cells : List Cell) (rs : List String),
    anonymizeCells (mapOfSeen rs) cells =
      (mapOfSeen (firstSeenFrom rs (rawsOf cells)),
       cells.map fun c =>
         match rawOf c with
         | none => c
         | some r => .str (anonFor ((firstSeenFrom rs (rawsOf cells)).indexOf r))) := by
  intro cells
  induction cells with
  | nil => intro rs; simp [anonymizeCells, rawsOf, firstSeenFrom]
  | cons c cs ih =>
    intro rs
    cases hc : rawOf c with
    | none =>
      have hraws : rawsOf (c :: cs) = rawsOf cs := by simp [rawsOf, hc]
      show ((anonymizeCells (anonymizeText (mapOfSeen rs) c).1 cs).1,
        (anonymizeText (mapOfSeen rs) c).2 ::
          (anonymizeCells (anonymizeText (mapOfSeen rs) c).1 cs).2) = _
      rw [anonymizeText_none hc, hraws]
      rw [show ((mapOfSeen rs, c) : AnonMap × Cell).1 = mapOfSeen rs from rfl, ih rs]
      simp [hc]
    | some r =>
      have hraws : rawsOf (c :: cs) = r :: rawsOf cs := by simp [rawsOf, hc]
      by_cases hr : r ∈ rs
      · have hF : firstSeenFrom rs (rawsOf (c :: cs)) = firstSeenFrom rs (rawsOf cs) := by
          rw [hraws]
          show firstSeenFrom (if r ∈ rs then rs else rs ++ [r]) (rawsOf cs) = _
          rw [if_pos hr]
        have hstep : anonymizeText (mapOfSeen rs) c =
            (mapOfSeen rs, .str (anonFor (rs.indexOf r))) := by
          rw [anonymizeText_some hc, lookup_mapOfSeen_of_mem rs r hr]
        have hidx : (firstSeenFrom rs (rawsOf cs)).indexOf r = rs.indexOf r := by
          rcases firstSeenFrom_suffix (rawsOf cs) rs with ⟨ext, hext⟩
          rw [hext, List.indexOf_append_of_mem hr]
        show ((anonymizeCells (anonymizeText (mapOfSeen rs) c).1 cs).1,
          (anonymizeText (mapOfSeen rs) c).2 ::
            (anonymizeCells (anonymizeText (mapOfSeen rs) c).1 cs).2) = _
        rw [hstep, hF]
        rw [show ((mapOfSeen rs, Cell.str (anonFor (rs.indexOf r))) :
          AnonMap × Cell).1 = mapOfSeen rs from rfl, ih rs]
        simp [hc, hidx]
      · have hF : firstSeenFrom rs (rawsOf (c :: cs)) =
            firstSeenFrom (rs ++ [r]) (rawsOf cs) := by
          rw [hraws]
          show firstSeenFrom (if r ∈ rs then rs else rs ++ [r]) (rawsOf cs) = _
          rw [if_neg hr]
        have hstep : anonymizeText (mapOfSeen rs) c =
            (mapOfSeen (rs ++ [r]), .str (anonFor rs.length)) := by
          rw [anonymizeText_some hc, lookup_mapOfSeen_of_not_mem rs r hr,
            mapOfSeen_append, mapOfSeen_length]
        have hidx : (firstSeenFrom (rs ++ [r]) (rawsOf cs)).indexOf r = rs.length := by
          rcases firstSeenFrom_suffix (rawsOf cs) (rs ++ [r]) with ⟨ext, hext⟩
          rw [hext,
            List.indexOf_append_of_mem (List.mem_append_right _ (List.mem_singleton.2 rfl)),
            List.indexOf_append_of_not_mem hr]
          simp [List.indexOf_cons_self]
        show ((anonymizeCells (anonymizeText (mapOfSeen rs) c).1 cs).1,
          (anonymizeText (mapOfSeen rs) c).2 ::
            (anonymizeCells (anonymizeText (mapOfSeen rs) c).1 cs).2) = _
        rw [hstep, hF]
        rw [show ((mapOfSeen (rs ++ [r]), Cell.str (anonFor rs.length)) :
          AnonMap × Cell).1 = mapOfSeen (rs ++ [r]) from rfl, ih (rs ++ [r])]
        simp [hc, hidx]

theorem methodMatches_method {m rel : String} (h : methodMatches m rel = true) :
    m = "RO" ∨ m = "PAR_CHD" := by
  unfold methodMatches at h
  simp only [Bool.or_eq_true, Bool.and_eq_true, decide_eq_true_eq] at h
  rcases h with ⟨h1, _⟩ | ⟨h1, _⟩
  · exact Or.inl h1
  · exact Or.inr h1

/-! # The claims

Each claim of the specification is settled by one theorem below;
counterexample theorems evaluate the embedded code at explicit inputs. -/

/-- C1: within one scrubber instance (the anonymization map starting
empty), cells with the same raw text receive the same pseudonym, cells
with distinct raw texts never collide, and each pseudonym is `ANON_`
followed by the zero-padded (6-digit while fewer than a million distinct
values have been seen) counter of its raw value's first-seen rank —
`firstSeenFrom [] (rawsOf cells)` lists the distinct raw values in
first-seen order, and `indexOf` in it is the counter value assigned. -/
theorem c1_anonymize_consistency (cells : List Cell) (i j : Nat) (ci cj : Cell)
    (ri rj : String)
    (hci : cells[i]? = some ci) (hri : rawOf ci = some ri)
    (hcj : cells[j]? = some cj) (hrj : rawOf cj = some rj) :
    (anonymizeCells [] cells).2[i]? =
      some (.str (anonFor ((firstSeenFrom [] (rawsOf cells)).indexOf ri))) ∧
    (anonymizeCells [] cells).2[j]? =
      some (.str (anonFor ((firstSeenFrom [] (rawsOf cells)).indexOf rj))) ∧
    (ri = rj → (anonymizeCells [] cells).2[i]? = (anonymizeCells [] cells).2[j]?) ∧
    (ri ≠ rj → (anonymizeCells [] cells).2[i]? ≠ (anonymizeCells [] cells).2[j]?) ∧
    ((firstSeenFrom [] (rawsOf cells)).indexOf ri < 1000000 →
      (zfill6 ((firstSeenFrom [] (rawsOf cells)).indexOf ri)).length = 6) := by
  have hspec := anonymizeCells_spec cells []
  have h2 : (anonymizeCells [] cells).2 = cells.map fun c =>
      match rawOf c with
      | none => c
      | some r => .str (anonFor ((firstSeenFrom [] (rawsOf cells)).indexOf r)) := by
    rw [show ([] : AnonMap) = mapOfSeen [] from rfl, hspec]
  have houti : (anonymizeCells [] cells).2[i]? =
      some (.str (anonFor ((firstSeenFrom [] (rawsOf cells)).indexOf ri))) := by
    rw [h2, List.getElem?_map, hci, Option.map_some']
    rw [hri]
  have houtj : (anonymizeCells [] cells).2[j]? =
      some (.str (anonFor ((firstSeenFrom [] (rawsOf cells)).indexOf rj))) := by
    rw [h2, List.getElem?_map, hcj, Option.map_some']
    rw [hrj]
  have hmemi : ri ∈ firstSeenFrom [] (rawsOf cells) :=
    mem_firstSeenFrom _ _ _
      (List.mem_filterMap.2 ⟨ci, List.getElem?_mem hci, hri⟩)
  have hmemj : rj ∈ firstSeenFrom [] (rawsOf cells) :=
    mem_firstSeenFrom _ _ _
      (List.mem_filterMap.2 ⟨cj, List.getElem?_mem hcj, hrj⟩)
  refine ⟨houti, houtj, fun hee => by rw [houti, houtj, hee],
    fun hne heq => hne ?_, fun hlt => zfill6_length_of_lt hlt⟩
  rw [houti, houtj] at heq
  have heq2 := Option.some.inj heq
  have heq3 : anonFor ((firstSeenFrom [] (rawsOf cells)).indexOf ri) =
      anonFor ((firstSeenFrom [] (rawsOf cells)).indexOf rj) := by
    injection heq2
  exact (List.indexOf_inj hmemi hmemj).1 (anonFor_inj heq3)

/-- C1 witness: the run on `[bob, null, ann, bob]`; the two occurrences of
`bob` share `ANON_000000`, `ann` receives the distinct `ANON_000001`. -/
theorem c1_anonymize_consistency_witness :
    (anonymizeCells [] [Cell.str "bob", Cell.null, Cell.str "ann", Cell.str "bob"]).2[0]? =
      some (.str (anonFor ((firstSeenFrom []
        (rawsOf [Cell.str "bob", Cell.null, Cell.str "ann", Cell.str "bob"])).indexOf "bob"))) ∧
    (anonymizeCells [] [Cell.str "bob", Cell.null, Cell.str "ann", Cell.str "bob"]).2[2]? =
      some (.str (anonFor ((firstSeenFrom []
        (rawsOf [Cell.str "bob", Cell.null, Cell.str "ann", Cell.str "bob"])).indexOf "ann"))) ∧
    ("bob" = "ann" →
      (anonymizeCells [] [Cell.str "bob", Cell.null, Cell.str "ann", Cell.str "bob"]).2[0]? =
      (anonymizeCells [] [Cell.str "bob", Cell.null, Cell.str "ann", Cell.str "bob"]).2[2]?) ∧
    ("bob" ≠ "ann" →
      (anonymizeCells [] [Cell.str "bob", Cell.null, Cell.str "ann", Cell.str "bob"]).2[0]? ≠
      (anonymizeCells [] [Cell.str "bob", Cell.null, Cell.str "ann", Cell.str "bob"]).2[2]?) ∧
    ((firstSeenFrom []
        (rawsOf [Cell.str "bob", Cell.null, Cell.str "ann", Cell.str "bob"])).indexOf "bob" <
        1000000 →
      (zfill6 ((firstSeenFrom []
        (rawsOf [Cell.str "bob", Cell.null, Cell.str "ann", Cell.str "bob"])).indexOf "bob")).length
        = 6) :=
  c1_anonymize_consistency
    [Cell.str "bob", Cell.null, Cell.str "ann", Cell.str "bob"] 0 2
    (Cell.str "bob") (Cell.str "ann") "bob" "ann"
    (by decide) (by decide) (by decide) (by decide)

/-- C4: under hash mode every null or empty cell is returned unchanged;
every other cell is replaced by the SHA-256 digest of its string form
concatenated with the salt, truncated to 16 hex characters; and for a
fixed salt the output depends only on the string form of the cell, hence
is identical across rows and across runs. -/
theorem c4_hash_mode (salt : String) (c c2 : Cell) :
    hashText salt .null = .null ∧
    hashText salt (.str "") = .str "" ∧
    (∀ r, rawOf c = some r →
      hashText salt c = .str (String.mk ((sha256Hex (utf8Bytes (r ++ salt))).take 16)) ∧
      ∃ s, hashText salt c = .str s ∧ s.length = 16 ∧
        ∀ ch ∈ s.data, isHexDigitC ch = true) ∧
    (∀ r, rawOf c = some r → rawOf c2 = some r →
      hashText salt c = hashText salt c2) := by
  refine ⟨rfl, rfl, fun r hr => ?_, fun r hr hr2 => ?_⟩
  · have he : hashText salt c =
        .str (String.mk ((sha256Hex (utf8Bytes (r ++ salt))).take 16)) := by
      unfold hashText
      rw [hr]
    refine ⟨he, String.mk ((sha256Hex (utf8Bytes (r ++ salt))).take 16), he, ?_, ?_⟩
    · show (String.mk ((sha256Hex (utf8Bytes (r ++ salt))).take 16)).data.length = 16
      rw [List.length_take, sha256Hex_length]
      decide
    · intro ch hch
      exact sha256Hex_hex _ ch (List.take_subset 16 _ hch)
  · unfold hashText
    rw [hr, hr2]

/-- C4 witness: the theorem applied to the cell `abc` under the default
salt. -/
theorem c4_hash_mode_witness :
    hashText defaultSalt (.str "abc") =
      .str (String.mk ((sha256Hex (utf8Bytes ("abc" ++ defaultSalt))).take 16)) :=
  ((c4_hash_mode defaultSalt (.str "abc") (.str "abc")).2.2.1 "abc" (by decide)).1

/-- C5 (code bug evidence): the content-based classification check is NOT
total.  `sample_size = min(1000, len(series))` counts nulls, but the
sample is drawn from `series.dropna()`; on a two-row column holding one
null, pandas `sample(n=2)` over a one-element population raises
`ValueError: Cannot take a larger sample than population`.  Both the PII
and the clinical-code content checks fail this way. -/
theorem c5_content_check_raises_on_null_rows :
    columnContainsPII [Cell.null, Cell.str "x"] = .error .sampleLargerThanPopulation ∧
    columnContainsCodes [Cell.null, Cell.str "x"] = .error .sampleLargerThanPopulation := by
  constructor <;> rfl

/-- C3 (counterexample): a column of unrelated random floats is NOT always
classified as neither PII nor code: the 16-digit mantissa of the float
rendering `0.5488135039273248` matches both the credit-card shape (16
digits) and the SNOMED shape (a 6-to-18-digit run), so the column is
classified both PII and clinical-code, contradicting the claim. -/
theorem c3_float_column_counterexample :
    columnIsPII "val" [Cell.num "0.5488135039273248"] = .ok true ∧
    columnIsCode "val" [Cell.num "0.5488135039273248"] = .ok true := by
  constructor <;> decide

/-- C3 (amended): a column named `patient_email` is always classified PII
regardless of its contents (the name match short-circuits the content
check); a column of floats is classified neither PII nor code provided no
detector regex and no code shape matches its rendered sample — e.g. a
short-mantissa float such as `3.14`.  (Unamended, the float half fails on
long-mantissa floats; see the counterexample.) -/
theorem c3_classifier_amended :
    (∀ cells : List Cell, columnIsPII "patient_email" cells = .ok true) ∧
    columnIsPII "val" [Cell.num "3.14"] = .ok false ∧
    columnIsCode "val" [Cell.num "3.14"] = .ok false := by
  refine ⟨fun cells => ?_, by decide, by decide⟩
  have h : nameMatchesPII "patient_email" = true := by decide
  simp [columnIsPII, h]

/-- C2 (counterexample): the union guard is
`cui1 in cui_to_snomed and cui2 in cui_to_icd10`, not a symmetric
`both have entries`.  Here CUI `C1` has an (ICD-10) entry and CUI `C2` has
a (SNOMED) entry holding `s1`, the relation row matches method `RO`, yet
`C1` is absent from the SNOMED table so no union fires and `s1` never
reaches `C1`. -/
theorem c2_union_guard_counterexample :
    "s1" ∈ tblGet (consoPhase
        [["C1","","","","","","","","","","","ICD10CM","","ia"],
         ["C2","","","","","","","","","","","SNOMEDCT_US","","s1"]]).1 "C2" ∧
    methodMatches "RO" "RO" = true ∧
    "s1" ∉ tblGet (generateMappings "RO"
        [["C1","","","","","","","","","","","ICD10CM","","ia"],
         ["C2","","","","","","","","","","","SNOMEDCT_US","","s1"]]
        (some [["C1","","","","C2","","","RO"]])).1 "C1" := by
  refine ⟨by decide, by decide, by decide⟩

/-- C7 (counterexample): relation propagation is NOT one-hop regardless of
row order.  `CA` holds SNOMED code `sa`; the rows relate `CB` to `CA` and
then `CC` to `CB`.  Processing is sequential over the already-updated
tables, so `CC` — related only to `CB`, with no edge to `CA` — ends up
holding `CA`'s code `sa`, which no direct edge of `CC` reaches. -/
theorem c7_two_hop_leak_counterexample :
    "sa" ∈ tblGet (consoPhase
        [["CA","","","","","","","","","","","SNOMEDCT_US","","sa"],
         ["CA","","","","","","","","","","","ICD10CM","","ia"],
         ["CB","","","","","","","","","","","SNOMEDCT_US","","sb"],
         ["CB","","","","","","","","","","","ICD10CM","","ib"],
         ["CC","","","","","","","","","","","SNOMEDCT_US","","sc"],
         ["CC","","","","","","","","","","","ICD10CM","","ic"]]).1 "CA" ∧
    "sa" ∉ tblGet (consoPhase
        [["CA","","","","","","","","","","","SNOMEDCT_US","","sa"],
         ["CA","","","","","","","","","","","ICD10CM","","ia"],
         ["CB","","","","","","","","","","","SNOMEDCT_US","","sb"],
         ["CB","","","","","","","","","","","ICD10CM","","ib"],
         ["CC","","","","","","","","","","","SNOMEDCT_US","","sc"],
         ["CC","","","","","","","","","","","ICD10CM","","ic"]]).1 "CC" ∧
    "sa" ∈ tblGet (generateMappings "RO"
        [["CA","","","","","","","","","","","SNOMEDCT_US","","sa"],
         ["CA","","","","","","","","","","","ICD10CM","","ia"],
         ["CB","","","","","","","","","","","SNOMEDCT_US","","sb"],
         ["CB","","","","","","","","","","","ICD10CM","","ib"],
         ["CC","","","","","","","","","","","SNOMEDCT_US","","sc"],
         ["CC","","","","","","","","","","","ICD10CM","","ic"]]
        (some [["CB","","","","CA","","","RO"],
               ["CC","","","","CB","","","RO"]])).1 "CC" := by
  refine ⟨by decide, by decide, by decide⟩

/-- C8: every non-fatal pipeline stage preserves the row count.  When PII
scrubbing, date shifting, or terminology enrichment returns a frame
(rather than raising), every column of the returned frame has exactly as
many cells as every column of the input frame: scrubbing maps columns
cell-wise and broadcasts its metadata columns over the index, date
shifting maps each datetime column element-wise, and enrichment appends
index-length sibling columns. -/
theorem c8_stage_row_preservation (mode salt now : String) (st : AnonMap)
    (df : DF) (n : Nat) (st2 : AnonMap) (df2 : DF) (days : Int) (df3 : DF)
    (loaded : Bool) (snomedT icd10T : Tbl) (df4 : DF)
    (hwf : WellFormed df n)
    (hpii : piiTransform mode salt now st df = .ok (st2, df2))
    (hshift : shiftDatesRun days df = (df3, false))
    (humls : umlsTransform loaded snomedT icd10T df = .ok df4) :
    WellFormed df2 n ∧ WellFormed df3 n ∧ WellFormed df4 n := by
  refine ⟨piiTransform_wf hwf hpii, ?_, umlsTransform_wf hwf humls⟩
  have h1 : (shiftDatesRun days df).1 = df3 := by rw [hshift]
  have h2 : (shiftDatesRun days df).2 = false := by rw [hshift]
  rw [← h1]
  exact shiftDatesRun_wf hwf h2

/-- C8 witness: a one-column, one-row frame through all three stages. -/
theorem c8_stage_row_preservation_witness :
    WellFormed [("email", Col.obj [Cell.str "abc"]),
      ("pii_scrubbing_mode", Col.obj [Cell.str "remove"]),
      ("pii_scrubbing_timestamp", Col.obj [Cell.str "t0"]),
      ("pii_columns_scrubbed", Col.obj [Cell.str "email"]),
      ("pii_rows_affected", Col.obj [Cell.num "1"]),
      ("pii_scrubbing_percentage", Col.obj [Cell.num "100"])] 1 ∧
    WellFormed [("email", Col.obj [Cell.str "abc"])] 1 ∧
    WellFormed [("email", Col.obj [Cell.str "abc"])] 1 :=
  c8_stage_row_preservation "remove" defaultSalt "t0" []
    [("email", Col.obj [Cell.str "abc"])] 1 []
    [("email", Col.obj [Cell.str "abc"]),
     ("pii_scrubbing_mode", Col.obj [Cell.str "remove"]),
     ("pii_scrubbing_timestamp", Col.obj [Cell.str "t0"]),
     ("pii_columns_scrubbed", Col.obj [Cell.str "email"]),
     ("pii_rows_affected", Col.obj [Cell.num "1"]),
     ("pii_scrubbing_percentage", Col.obj [Cell.num "100"])]
    0 [("email", Col.obj [Cell.str "abc"])] false [] []
    [("email", Col.obj [Cell.str "abc"])]
    (by intro p hp; rcases List.mem_singleton.1 hp with h; subst h; rfl)
    (by decide) (by decide) (by decide)

/-- C2 (amended): during mapping-table construction with method RO or
PAR_CHD, for every relation row whose relation matches the method and at
whose processing point CUI1 already has a SNOMED entry and CUI2 an ICD-10
entry (the asymmetric guard the code actually tests), every code then in
CUI2's SNOMED and ICD-10 sets ends up in CUI1's corresponding final set;
in particular, A related to B with B holding SNOMED `S1` gets `S1` into
A's set provided A is SNOMED-keyed and B is ICD-10-keyed. -/
theorem c2_union_amended (method : String) (consoRows : List (List String))
    (pre post : List (List String)) (row : List String) (s1 i1 : String)
    (hlen : 8 ≤ row.length)
    (hm : methodMatches method (row.getD 7 "") = true)
    (h1 : tblHas (pre.foldl (relStep method) (consoPhase consoRows)).1 (row.getD 0 "") = true)
    (h2 : tblHas (pre.foldl (relStep method) (consoPhase consoRows)).2 (row.getD 4 "") = true)
    (hs : s1 ∈ tblGet (pre.foldl (relStep method) (consoPhase consoRows)).1 (row.getD 4 ""))
    (hi : i1 ∈ tblGet (pre.foldl (relStep method) (consoPhase consoRows)).2 (row.getD 4 "")) :
    s1 ∈ tblGet ((generateMappings method consoRows (some (pre ++ row :: post))).1)
        (row.getD 0 "") ∧
    i1 ∈ tblGet ((generateMappings method consoRows (some (pre ++ row :: post))).2)
        (row.getD 0 "") := by
  have hmeth : (method = "RO" || method = "PAR_CHD") = true := by
    rcases methodMatches_method hm with h | h <;> simp [h]
  unfold generateMappings
  rw [if_pos hmeth]
  show s1 ∈ tblGet ((List.foldl (relStep method) (consoPhase consoRows)
      (pre ++ row :: post)).1) (row.getD 0 "") ∧
    i1 ∈ tblGet ((List.foldl (relStep method) (consoPhase consoRows)
      (pre ++ row :: post)).2) (row.getD 0 "")
  rw [List.foldl_append, List.foldl_cons]
  have hu := @relStep_union method (pre.foldl (relStep method) (consoPhase consoRows))
    row hlen hm h1 h2
  exact ⟨foldl_relStep_snomed_mono method post (hu.1 s1 hs),
         foldl_relStep_icd_mono method post (hu.2 i1 hi)⟩

/-- C2 witness: one matching relation row `A -> B`, with A SNOMED-keyed
and B ICD-10-keyed; B's codes `s1` and `i1` reach A. -/
theorem c2_union_amended_witness :
    "s1" ∈ tblGet ((generateMappings "RO"
        [["A","","","","","","","","","","","SNOMEDCT_US","","x"],
         ["B","","","","","","","","","","","SNOMEDCT_US","","s1"],
         ["B","","","","","","","","","","","ICD10CM","","i1"]]
        (some ([] ++ ["A","","","","B","","","RO"] :: []))).1)
        (["A","","","","B","","","RO"].getD 0 "") ∧
    "i1" ∈ tblGet ((generateMappings "RO"
        [["A","","","","","","","","","","","SNOMEDCT_US","","x"],
         ["B","","","","","","","","","","","SNOMEDCT_US","","s1"],
         ["B","","","","","","","","","","","ICD10CM","","i1"]]
        (some ([] ++ ["A","","","","B","","","RO"] :: []))).2)
        (["A","","","","B","","","RO"].getD 0 "") :=
  c2_union_amended "RO"
    [["A","","","","","","","","","","","SNOMEDCT_US","","x"],
     ["B","","","","","","","","","","","SNOMEDCT_US","","s1"],
     ["B","","","","","","","","","","","ICD10CM","","i1"]]
    [] [] ["A","","","","B","","","RO"] "s1" "i1"
    (by decide) (by decide) (by decide) (by decide) (by decide) (by decide)

/-- C9 (counterexample): a failing date-shift stage does NOT leave the
batch as it was.  `shift_dates` mutates the frame column by column; with
column `adm` in range and column `dob` overflowing the pandas timestamp
bound, the stage raises after `adm` is already shifted, and the frame the
orchestrator carries into the next stage differs from the pre-stage
frame. -/
theorem c9_partial_shift_counterexample :
    (shiftDatesRun 100 [("adm", Col.dt [some 0]), ("dob", Col.dt [some 106700])]).2 = true ∧
    (shiftDatesRun 100 [("adm", Col.dt [some 0]), ("dob", Col.dt [some 106700])]).1 =
      [("adm", Col.dt [some 100]), ("dob", Col.dt [some 106700])] ∧
    (shiftDatesRun 100 [("adm", Col.dt [some 0]), ("dob", Col.dt [some 106700])]).1 ≠
      [("adm", Col.dt [some 0]), ("dob", Col.dt [some 106700])] := by
  refine ⟨by decide, by decide, by decide⟩

/-- C7 (amended): propagation is one-hop relative to the processing order
of the relation extract — a row unions CUI2's sets as they stand when that
row is processed, so earlier rows can feed later ones (see the
counterexample).  When the relation extract holds a single row, the bound
the claim states does hold: any CUI's final set is contained in its own
direct codes together with the direct codes of that row's CUI2. -/
theorem c7_one_hop_amended (method : String) (consoRows : List (List String))
    (row : List String) (x v : String) :
    (v ∈ tblGet ((generateMappings method consoRows (some [row])).1) x →
      v ∈ tblGet (consoPhase consoRows).1 x ∨
      v ∈ tblGet (consoPhase consoRows).1 (row.getD 4 "")) ∧
    (v ∈ tblGet ((generateMappings method consoRows (some [row])).2) x →
      v ∈ tblGet (consoPhase consoRows).2 x ∨
      v ∈ tblGet (consoPhase consoRows).2 (row.getD 4 "")) := by
  unfold generateMappings
  split
  · exact ⟨fun h => relStep_snomed_subset h, fun h => relStep_icd_subset h⟩
  · exact ⟨fun h => Or.inl h, fun h => Or.inl h⟩

/-- C7 witness: with one relation row `A -> B`, the code `sb` found in
A's final SNOMED set is among A's or B's direct codes. -/
theorem c7_one_hop_amended_witness :
    "sb" ∈ tblGet (consoPhase
        [["A","","","","","","","","","","","SNOMEDCT_US","","sa"],
         ["A","","","","","","","","","","","ICD10CM","","ia"],
         ["B","","","","","","","","","","","SNOMEDCT_US","","sb"],
         ["B","","","","","","","","","","","ICD10CM","","ib"]]).1 "A" ∨
    "sb" ∈ tblGet (consoPhase
        [["A","","","","","","","","","","","SNOMEDCT_US","","sa"],
         ["A","","","","","","","","","","","ICD10CM","","ia"],
         ["B","","","","","","","","","","","SNOMEDCT_US","","sb"],
         ["B","","","","","","","","","","","ICD10CM","","ib"]]).1
        (["A","","","","B","","","RO"].getD 4 "") :=
  (c7_one_hop_amended "RO"
      [["A","","","","","","","","","","","SNOMEDCT_US","","sa"],
       ["A","","","","","","","","","","","ICD10CM","","ia"],
       ["B","","","","","","","","","","","SNOMEDCT_US","","sb"],
       ["B","","","","","","","","","","","ICD10CM","","ib"]]
      ["A","","","","B","","","RO"] "A" "sb").1 (by decide)

/-- C9 (amended): stages that build their result on a copy carry the
batch forward exactly as it was when they raise: the PII stage and any
copy-based stage run through the orchestrator's catch leave the frame
untouched on error.  The date-shift stage instead mutates in place: when
its loop aborts on an overflowing column, the carried frame is the shifted
prefix followed by the untouched failing and remaining columns — not the
pre-stage frame. -/
theorem c9_stage_isolation_amended
    (mode salt now : String) (st : AnonMap) (df : DF) (e e2 : PdError)
    (f : DF → Except PdError DF) (days : Int)
    (pre post : DF) (nmb : String) (bad : List (Option Int))
    (hf : f df = .error e)
    (hp : piiTransform mode salt now st df = .error e2)
    (hpre : (shiftDatesRun days pre).2 = false)
    (hbad : shiftCellsDt days bad = .error .outOfBoundsDatetime) :
    runStageCatch f df = df ∧
    piiStage mode salt now st df = df ∧
    (shiftDatesRun days (pre ++ (nmb, Col.dt bad) :: post)).1 =
      (shiftDatesRun days pre).1 ++ (nmb, Col.dt bad) :: post := by
  refine ⟨by simp [runStageCatch, hf], by simp [piiStage, hp], ?_⟩
  clear hf hp
  induction pre with
  | nil => simp [shiftDatesRun, hbad]
  | cons p pre ih =>
    obtain ⟨nm, col⟩ := p
    cases col with
    | obj cs =>
      have hpre2 : (shiftDatesRun days pre).2 = false := by
        simpa [shiftDatesRun] using hpre
      simp [shiftDatesRun, ih hpre2]
    | dt cs =>
      cases hsc : shiftCellsDt days cs with
      | ok cs1 =>
        have hpre2 : (shiftDatesRun days pre).2 = false := by
          simpa [shiftDatesRun, hsc] using hpre
        simp [shiftDatesRun, hsc, ih hpre2]
      | error err =>
        simp [shiftDatesRun, hsc] at hpre

/-- C9 witness: a concrete failing PII stage (null-bearing column), a
concrete failing copy-based stage, and a concrete partial date shift. -/
theorem c9_stage_isolation_amended_witness :
    runStageCatch (fun _ => .error .sampleLargerThanPopulation)
      [("v", Col.obj [Cell.null, Cell.str "x"])] =
      [("v", Col.obj [Cell.null, Cell.str "x"])] ∧
    piiStage "remove" defaultSalt "t0" [] [("v", Col.obj [Cell.null, Cell.str "x"])] =
      [("v", Col.obj [Cell.null, Cell.str "x"])] ∧
    (shiftDatesRun 100 ([("adm", Col.dt [some 0])] ++
        ("dob", Col.dt [some 106700]) :: [])).1 =
      (shiftDatesRun 100 [("adm", Col.dt [some 0])]).1 ++
        ("dob", Col.dt [some 106700]) :: [] :=
  c9_stage_isolation_amended "remove" defaultSalt "t0" []
    [("v", Col.obj [Cell.null, Cell.str "x"])]
    .sampleLargerThanPopulation .sampleLargerThanPopulation
    (fun _ => .error .sampleLargerThanPopulation) 100
    [("adm", Col.dt [some 0])] [] "dob" [some 106700]
    rfl (by decide) (by decide) (by decide)

/-- C6 (counterexample): in mask mode, the cell `AB123456` is one single
medical-license match of length 8, yet the generic branch substitutes
`'*' * len(pattern_info['pattern'])` — 20 asterisks, the length of the
regex source string, not of the matched text. -/
theorem c6_mask_length_counterexample :
    maskCell (.str "AB123456") = .str (String.mk (List.replicate 20 '*')) ∧
    maskCell (.str "AB123456") ≠ .str (String.mk (List.replicate 8 '*')) := by
  refine ⟨by decide, by decide⟩

/-- C6 (amended): in mask mode, each substring matched by a detector other
than the four special-cased ones is replaced by a run of `'*'` whose
length equals the length of the detector's regex SOURCE STRING (a
per-detector constant), not the length of the matched text: cells
`AB111111`, `AB1111111`, `AB11111111` (medical-license matches of lengths
8, 9, 10) all mask to the same 20 asterisks, 20 being the length of
`self.pii_patterns['medical_license']['pattern']`. -/
theorem c6_mask_generic_amended (n : Nat) (h1 : 6 ≤ n) (h2 : n ≤ 8) :
    maskTextStr ("AB" ++ String.mk (List.replicate n '1')) =
      String.mk (List.replicate
        ("\\b[A-Z]\x7b2\x7d\\d\x7b6,10\x7d\\b" : String).length '*') ∧
    ∃ pi ∈ piiPatterns, pi.name = "medical_license" ∧
      pi.src = "\\b[A-Z]\x7b2\x7d\\d\x7b6,10\x7d\\b" := by
  constructor
  · interval_cases n <;> decide
  · exact ⟨⟨"medical_license", "\\b[A-Z]\x7b2\x7d\\d\x7b6,10\x7d\\b", medLicDetRE⟩,
      List.Mem.tail _ (List.Mem.tail _ (List.Mem.tail _ (List.Mem.tail _ (List.Mem.head _)))),
      rfl, rfl⟩

/-- C6 witness: the amended statement at a 6-digit medical-license cell. -/
theorem c6_mask_generic_amended_witness :
    maskTextStr ("AB" ++ String.mk (List.replicate 6 '1')) =
      String.mk (List.replicate
        ("\\b[A-Z]\x7b2\x7d\\d\x7b6,10\x7d\\b" : String).length '*') :=
  (c6_mask_generic_amended 6 (by decide) (by decide)).1

/-- C10 (counterexample): a null cell in a PII column does NOT always
become the literal string `nan`.  `astype(str)` stringifies the actual
null object: a None-valued null — what `read_parquet` yields for a
missing entry of a string column — renders as the literal string `None`,
which no detector matches, so remove mode leaves the cell as `None`,
not `nan`. -/
theorem c10_null_rendering_counterexample :
    removeCell Cell.noneVal = .str "None" ∧
    Cell.str "None" ≠ Cell.str "nan" := by
  refine ⟨by decide, by decide⟩

/-- C10 (amended): in remove mode every cell is passed through
`astype(str)` before pattern removal, so a null cell does not stay null —
a NaN-valued null becomes the literal string `nan` and a None-valued null
the literal string `None` (no detector matches inside either, so both
survive removal) — a numeric cell becomes its rendering with matches
erased, and a cell whose text is entirely erased becomes null, as
`replace('', np.nan)` fires. -/
theorem c10_remove_mode_frame_effect_amended (c : Cell) :
    removeCell .null = .str "nan" ∧
    removeCell .noneVal = .str "None" ∧
    (removeAllPatterns (cellStr c) = "" → removeCell c = .null) ∧
    (removeAllPatterns (cellStr c) ≠ "" →
      removeCell c = .str (removeAllPatterns (cellStr c))) ∧
    removeCell (.str "123-45-6789") = .null := by
  refine ⟨by decide, by decide, fun h => ?_, fun h => ?_, by decide⟩
  · simp [removeCell, h]
  · simp [removeCell, h]

/-- C10 witness: the amended theorem applied to the numeric cell `3.14`,
whose rendering no detector touches. -/
theorem c10_remove_mode_frame_effect_amended_witness :
    removeCell (Cell.num "3.14") = .str (removeAllPatterns (cellStr (Cell.num "3.14"))) :=
  (c10_remove_mode_frame_effect_amended (Cell.num "3.14")).2.2.2.1 (by decide)

end CleanClinic
